import Mathlib

/-!
Verification of the virtual-memory subsystem of a bare-metal AArch64 kernel:
page-table descriptor encoding, the 4-level (4KB-granule, 48-bit) MMU table
manager, the MemoryChunk abstraction, and the boot-time mapping setup.

The boot-time code (`setup_memory_mapping`, `setup_vc_mapping`, `alloc_page`,
`mmu_init`) is embedded from the repository source.  The descriptor
encode/decode (`mmu_defs.hpp`), the MMU table walker (`mmu_table.cpp`) and the
MemoryChunk implementation (`memory_chunk.cpp`) are not part of the available
sources — only their headers and call sites are — so those definitions are
modelled from the specification, as noted in their doc comments.
-/

set_option maxRecDepth 8192

/-- Page size of the 4KB-granule scheme. -/
def PAGE_SIZE : Nat := 4096

/-- Shareability attribute of a mapping (AArch64 SH field). -/
inductive Shareability where
  | NonShareable
  | OuterShareable
  | InnerShareable
deriving DecidableEq, Repr

/-- Execute permission of a mapping: never execute, or privileged execute. -/
inductive ExecutionPermission where
  | NeverExecute
  | PrivilegedExecute
deriving DecidableEq, Repr

/-- Read/write permission of a mapping. -/
inductive ReadWritePermission where
  | ReadWrite
  | ReadOnly
deriving DecidableEq, Repr

/-- Accessibility of a mapping: privileged only, or also user (EL0). -/
inductive Accessibility where
  | Privileged
  | AllProcess
deriving DecidableEq, Repr

/-- Memory type of a mapping, indexing the MAIR attribute table. -/
inductive MemoryType where
  | Normal
  | Device_nGnRnE
  | Device_nGRE
  | Normal_NoCache
deriving DecidableEq, Repr

/-- Attributes applied to every leaf entry of a mapped range. -/
structure PagesAttributes where
  sh : Shareability
  exec : ExecutionPermission
  rw : ReadWritePermission
  access : Accessibility
  type : MemoryType
deriving DecidableEq, Repr

/-- SH field value (descriptor bits 9:8). -/
def shBits : Shareability → Nat
  | .NonShareable => 0
  | .OuterShareable => 2
  | .InnerShareable => 3

/-- AP field value (descriptor bits 7:6): bit 6 = EL0-accessible, bit 7 = read-only. -/
def apBits : Accessibility → ReadWritePermission → Nat
  | .Privileged, .ReadWrite => 0
  | .AllProcess, .ReadWrite => 1
  | .Privileged, .ReadOnly => 2
  | .AllProcess, .ReadOnly => 3

/-- AttrIndx field value (descriptor bits 4:2), the MAIR index of the memory type. -/
def attrIndx : MemoryType → Nat
  | .Normal => 0
  | .Device_nGnRnE => 1
  | .Device_nGRE => 2
  | .Normal_NoCache => 3

/-- UXN/PXN field value (descriptor bits 54:53, low bit = PXN). -/
def xnBits : ExecutionPermission → Nat
  | .NeverExecute => 3
  | .PrivilegedExecute => 2

/-- Modelled from the spec: `make_page_descriptor` of the missing `mmu_defs.hpp`.
Encodes a terminal (block or page) descriptor: valid bit, kind bit
(page when last level, block otherwise), AttrIndx, AP, SH, the access flag,
the output address bits 47:12 and the UXN/PXN bits. -/
def make_page_descriptor (pa : Nat) (attrs : PagesAttributes) (is_last_level : Bool) : Nat :=
  1 + (if is_last_level then 2 else 0) + attrIndx attrs.type * 4 +
    apBits attrs.access attrs.rw * 64 + shBits attrs.sh * 256 + 1024 +
    pa % 2 ^ 48 / 4096 * 4096 + xnBits attrs.exec * 2 ^ 53

/-- Decoded view of one translation-table descriptor. -/
inductive DecodedEntry where
  | invalid
  | table (next : Nat)
  | page (pa : Nat) (attrs : PagesAttributes)
deriving DecidableEq, Repr

/-- Decode the SH field. -/
def decodeSh (f : Nat) : Shareability :=
  if f = 2 then .OuterShareable else if f = 3 then .InnerShareable else .NonShareable

/-- Decode the EL0-accessible bit of the AP field. -/
def decodeAccess (f : Nat) : Accessibility :=
  if f % 2 = 1 then .AllProcess else .Privileged

/-- Decode the read-only bit of the AP field. -/
def decodeRw (f : Nat) : ReadWritePermission :=
  if f / 2 % 2 = 1 then .ReadOnly else .ReadWrite

/-- Decode the AttrIndx field. -/
def decodeMemoryType (f : Nat) : MemoryType :=
  if f = 1 then .Device_nGnRnE else if f = 2 then .Device_nGRE
  else if f = 3 then .Normal_NoCache else .Normal

/-- Decode the PXN bit. -/
def decodeExec (f : Nat) : ExecutionPermission :=
  if f % 2 = 1 then .NeverExecute else .PrivilegedExecute

/-- Output physical address of a terminal descriptor: bits 47:12. -/
def decodedPA (e : Nat) : Nat := e / 4096 % 2 ^ 36 * 4096

/-- Modelled from the spec: attribute decode of the missing `mmu_defs.hpp`,
the inverse of the attribute encoding of `make_page_descriptor`. -/
def decodeAttrs (e : Nat) : PagesAttributes :=
  { sh := decodeSh (e / 256 % 4)
    exec := decodeExec (e / 2 ^ 53 % 4)
    rw := decodeRw (e / 64 % 4)
    access := decodeAccess (e / 64 % 4)
    type := decodeMemoryType (e / 4 % 8) }

/-- Modelled from the spec: `decode` of the missing `mmu_defs.hpp`.
An entry whose valid bit is clear is invalid regardless of the other bits.
A valid entry with kind bit set is a next-level table descriptor except at the
last level, where it is a page descriptor; a valid entry with kind bit clear is
a block descriptor (terminal) except at the last level, where it is reserved
and treated as invalid. -/
def decode (e : Nat) (is_last_level : Bool) : DecodedEntry :=
  if e % 2 = 0 then .invalid
  else if e / 2 % 2 = 1 then
    if is_last_level then .page (decodedPA e) (decodeAttrs e) else .table (decodedPA e)
  else
    if is_last_level then .invalid else .page (decodedPA e) (decodeAttrs e)

-- Field extraction from the additive normal form of a descriptor.
theorem descriptor_fields (v t mt ap sh af pn xn : Nat)
    (hv : v < 2) (ht : t < 2) (hmt : mt < 8) (hap : ap < 4) (hsh : sh < 4)
    (haf : af < 2) (hpn : pn < 2 ^ 36) (hxn : xn < 4) :
    (v + 2 * t + 4 * mt + 64 * ap + 256 * sh + 1024 * af + 4096 * pn + 2 ^ 53 * xn) % 2 = v ∧
    (v + 2 * t + 4 * mt + 64 * ap + 256 * sh + 1024 * af + 4096 * pn + 2 ^ 53 * xn) / 2 % 2 = t ∧
    (v + 2 * t + 4 * mt + 64 * ap + 256 * sh + 1024 * af + 4096 * pn + 2 ^ 53 * xn) / 4 % 8 = mt ∧
    (v + 2 * t + 4 * mt + 64 * ap + 256 * sh + 1024 * af + 4096 * pn + 2 ^ 53 * xn) / 64 % 4 = ap ∧
    (v + 2 * t + 4 * mt + 64 * ap + 256 * sh + 1024 * af + 4096 * pn + 2 ^ 53 * xn) / 256 % 4 = sh ∧
    (v + 2 * t + 4 * mt + 64 * ap + 256 * sh + 1024 * af + 4096 * pn + 2 ^ 53 * xn) / 4096 % 2 ^ 36 = pn ∧
    (v + 2 * t + 4 * mt + 64 * ap + 256 * sh + 1024 * af + 4096 * pn + 2 ^ 53 * xn) / 2 ^ 53 % 4 = xn := by
  omega

theorem shBits_lt (s : Shareability) : shBits s < 4 := by cases s <;> decide

theorem apBits_lt (a : Accessibility) (r : ReadWritePermission) : apBits a r < 4 := by
  cases a <;> cases r <;> decide

theorem attrIndx_lt (m : MemoryType) : attrIndx m < 8 := by cases m <;> decide

theorem xnBits_lt (e : ExecutionPermission) : xnBits e < 4 := by cases e <;> decide

theorem decodeSh_shBits (s : Shareability) : decodeSh (shBits s) = s := by
  cases s <;> rfl

theorem decodeAccess_apBits (a : Accessibility) (r : ReadWritePermission) :
    decodeAccess (apBits a r) = a := by cases a <;> cases r <;> rfl

theorem decodeRw_apBits (a : Accessibility) (r : ReadWritePermission) :
    decodeRw (apBits a r) = r := by cases a <;> cases r <;> rfl

theorem decodeMemoryType_attrIndx (m : MemoryType) : decodeMemoryType (attrIndx m) = m := by
  cases m <;> rfl

theorem decodeExec_xnBits (e : ExecutionPermission) : decodeExec (xnBits e) = e := by
  cases e <;> rfl

/-- `make_page_descriptor` in additive normal form with the address slotted in. -/
theorem make_page_descriptor_eq (pa : Nat) (attrs : PagesAttributes) (b : Bool)
    (hal : pa % 4096 = 0) (hlt : pa < 2 ^ 48) :
    make_page_descriptor pa attrs b =
      1 + 2 * (if b then 1 else 0) + 4 * attrIndx attrs.type +
        64 * apBits attrs.access attrs.rw + 256 * shBits attrs.sh + 1024 * 1 +
        4096 * (pa / 4096) + 2 ^ 53 * xnBits attrs.exec := by
  unfold make_page_descriptor
  have h1 : pa % 2 ^ 48 = pa := Nat.mod_eq_of_lt hlt
  rw [h1]
  cases b <;> simp <;> omega

/-- The attribute part of the decode/encode round trip. -/
theorem decodeAttrs_make_page_descriptor (pa : Nat) (attrs : PagesAttributes) (b : Bool)
    (hal : pa % 4096 = 0) (hlt : pa < 2 ^ 48) :
    decodeAttrs (make_page_descriptor pa attrs b) = attrs := by
  rw [make_page_descriptor_eq pa attrs b hal hlt]
  have hpn : pa / 4096 < 2 ^ 36 := by omega
  obtain ⟨h2, h4, h8, h64, h256, h4096, h53⟩ :=
    descriptor_fields 1 (if b then 1 else 0) (attrIndx attrs.type)
      (apBits attrs.access attrs.rw) (shBits attrs.sh) 1 (pa / 4096) (xnBits attrs.exec)
      (by omega) (by cases b <;> decide) (attrIndx_lt _) (apBits_lt _ _) (shBits_lt _)
      (by omega) hpn (xnBits_lt _)
  unfold decodeAttrs
  rw [h256, h53, h64, h8]
  rw [decodeSh_shBits, decodeAccess_apBits, decodeRw_apBits, decodeMemoryType_attrIndx,
    decodeExec_xnBits]

/-- The address part of the decode/encode round trip. -/
theorem decodedPA_make_page_descriptor (pa : Nat) (attrs : PagesAttributes) (b : Bool)
    (hal : pa % 4096 = 0) (hlt : pa < 2 ^ 48) :
    decodedPA (make_page_descriptor pa attrs b) = pa := by
  rw [make_page_descriptor_eq pa attrs b hal hlt]
  have hpn : pa / 4096 < 2 ^ 36 := by omega
  obtain ⟨h2, h4, h8, h64, h256, h4096, h53⟩ :=
    descriptor_fields 1 (if b then 1 else 0) (attrIndx attrs.type)
      (apBits attrs.access attrs.rw) (shBits attrs.sh) 1 (pa / 4096) (xnBits attrs.exec)
      (by omega) (by cases b <;> decide) (attrIndx_lt _) (apBits_lt _ _) (shBits_lt _)
      (by omega) hpn (xnBits_lt _)
  unfold decodedPA
  rw [h4096]
  omega

/-- A terminal descriptor always has its valid bit set. -/
theorem make_page_descriptor_odd (pa : Nat) (attrs : PagesAttributes) (b : Bool)
    (hal : pa % 4096 = 0) (hlt : pa < 2 ^ 48) :
    make_page_descriptor pa attrs b % 2 = 1 := by
  rw [make_page_descriptor_eq pa attrs b hal hlt]
  obtain ⟨h2, _⟩ :=
    descriptor_fields 1 (if b then 1 else 0) (attrIndx attrs.type)
      (apBits attrs.access attrs.rw) (shBits attrs.sh) 1 (pa / 4096) (xnBits attrs.exec)
      (by omega) (by cases b <;> decide) (attrIndx_lt _) (apBits_lt _ _) (shBits_lt _)
      (by omega) (by omega) (xnBits_lt _)
  exact h2

/-- The kind bit of a terminal descriptor matches the level it was made for. -/
theorem make_page_descriptor_kind (pa : Nat) (attrs : PagesAttributes) (b : Bool)
    (hal : pa % 4096 = 0) (hlt : pa < 2 ^ 48) :
    make_page_descriptor pa attrs b / 2 % 2 = (if b then 1 else 0) := by
  rw [make_page_descriptor_eq pa attrs b hal hlt]
  obtain ⟨h2, h4, _⟩ :=
    descriptor_fields 1 (if b then 1 else 0) (attrIndx attrs.type)
      (apBits attrs.access attrs.rw) (shBits attrs.sh) 1 (pa / 4096) (xnBits attrs.exec)
      (by omega) (by cases b <;> decide) (attrIndx_lt _) (apBits_lt _ _) (shBits_lt _)
      (by omega) (by omega) (xnBits_lt _)
  exact h4

/-- Full decode/encode round trip for terminal descriptors. -/
theorem decode_make_page_descriptor (pa : Nat) (attrs : PagesAttributes) (b : Bool)
    (hal : pa % 4096 = 0) (hlt : pa < 2 ^ 48) :
    decode (make_page_descriptor pa attrs b) b = .page pa attrs := by
  unfold decode
  rw [make_page_descriptor_odd pa attrs b hal hlt,
    make_page_descriptor_kind pa attrs b hal hlt,
    decodedPA_make_page_descriptor pa attrs b hal hlt,
    decodeAttrs_make_page_descriptor pa attrs b hal hlt]
  cases b <;> simp

/-- C5: descriptor encode/decode round trip, and clear valid bit means invalid. -/
theorem claim_C5_descriptor_roundtrip (pa : Nat) (attrs : PagesAttributes)
    (last_level : Bool) (hal : pa % 4096 = 0) (hlt : pa < 2 ^ 48) :
    decode (make_page_descriptor pa attrs last_level) last_level = .page pa attrs ∧
    ∀ e b, e % 2 = 0 → decode e b = .invalid := by
  refine ⟨decode_make_page_descriptor pa attrs last_level hal hlt, ?_⟩
  intro e b he
  unfold decode
  rw [he]
  simp

/-- Witness for C5 at a concrete address and attribute set. -/
theorem claim_C5_descriptor_roundtrip_witness :
    decode (make_page_descriptor 0x3000
        ⟨.InnerShareable, .NeverExecute, .ReadWrite, .Privileged, .Normal⟩ true) true =
      .page 0x3000 ⟨.InnerShareable, .NeverExecute, .ReadWrite, .Privileged, .Normal⟩ ∧
    ∀ e b, e % 2 = 0 → decode e b = .invalid :=
  claim_C5_descriptor_roundtrip 0x3000
    ⟨.InnerShareable, .NeverExecute, .ReadWrite, .Privileged, .Normal⟩ true
    (by decide) (by decide)

/-- Index into a level-0 (last level) table: VA bits 20:12. -/
def idx0 (va : Nat) : Nat := va / 2 ^ 12 % 512

/-- Index into a level-1 table: VA bits 29:21. -/
def idx1 (va : Nat) : Nat := va / 2 ^ 21 % 512

/-- Index into a level-2 table: VA bits 38:30. -/
def idx2 (va : Nat) : Nat := va / 2 ^ 30 % 512

/-- Index into the root (level-3) table: VA bits 47:39. -/
def idx3 (va : Nat) : Nat := va / 2 ^ 39 % 512

/-- 48-bit virtual page number: VA bits 47:12. -/
def pageNum (va : Nat) : Nat := va / 4096 % 2 ^ 36

theorem pageNum_eq_iff (a b : Nat) :
    pageNum a = pageNum b ↔
      (idx0 a = idx0 b ∧ idx1 a = idx1 b ∧ idx2 a = idx2 b ∧ idx3 a = idx3 b) := by
  unfold pageNum idx0 idx1 idx2 idx3
  omega

theorem pageNum_add (va m : Nat) (hal : va % 4096 = 0) (h : va + 4096 * m < 2 ^ 48) :
    pageNum (va + 4096 * m) = va / 4096 + m := by
  unfold pageNum
  omega

/-- Modelled from the spec: a last-level table page of the missing
`mmu_table.cpp` model.  `addr` is the page address handed out by the allocator;
`e` gives the raw descriptor stored at each of the 512 slots (0 when invalid). -/
structure TableL0 where
  addr : Nat
  e : Nat → Nat

/-- Modelled from the spec: a level-1 table page; a slot is either invalid or a
table descriptor for a last-level table. -/
structure TableL1 where
  addr : Nat
  e : Nat → Option TableL0

/-- Modelled from the spec: a level-2 table page. -/
structure TableL2 where
  addr : Nat
  e : Nat → Option TableL1

/-- Modelled from the spec: the root (level-3) table page. -/
structure TableL3 where
  addr : Nat
  e : Nat → Option TableL2

/-- Modelled from the spec: the `MMUTable` root of one address space, with the
page-directory tree, the next fresh allocator address, and whether the optional
`free` callback is present. -/
structure MMUTable where
  pgd : TableL3
  allocNext : Nat
  hasFree : Bool

/-- Walk of the last level: the stored descriptor when its valid bit is set. -/
def lookupL0 (t : TableL0) (va : Nat) : Option Nat :=
  if t.e (idx0 va) % 2 = 1 then some (t.e (idx0 va)) else none

/-- Walk from level 1 down. -/
def lookupL1 (t : TableL1) (va : Nat) : Option Nat :=
  match t.e (idx1 va) with
  | none => none
  | some s => lookupL0 s va

/-- Walk from level 2 down. -/
def lookupL2 (t : TableL2) (va : Nat) : Option Nat :=
  match t.e (idx2 va) with
  | none => none
  | some s => lookupL1 s va

/-- Walk from the root down to the leaf descriptor of `va`, if any. -/
def lookupL3 (t : TableL3) (va : Nat) : Option Nat :=
  match t.e (idx3 va) with
  | none => none
  | some s => lookupL2 s va

/-- Leaf descriptor covering `va`, if any level is valid all the way down. -/
def lookupLeaf (tbl : MMUTable) (va : Nat) : Option Nat :=
  lookupL3 tbl.pgd va

/-- Modelled from the spec: `translate` of the missing `mmu_table.cpp` — walks
the table, and returns the leaf's physical address plus the page offset of
`va`, or nothing if any level is invalid. -/
def MMUTable.translate (tbl : MMUTable) (va : Nat) : Option Nat :=
  (lookupLeaf tbl va).map (fun e => decodedPA e + va % PAGE_SIZE)

/-- Modelled from the spec: mapping one page at the last level — fails
(`AlreadyMapped`) if the target leaf is already valid. -/
def mapPageL0 (t : TableL0) (va pa : Nat) (attrs : PagesAttributes) : Option TableL0 :=
  if t.e (idx0 va) % 2 = 1 then none
  else some ⟨t.addr, fun j => if j = idx0 va then make_page_descriptor pa attrs true else t.e j⟩

/-- Modelled from the spec: mapping one page from level 1 — allocates a fresh
zeroed last-level table (at address `c`) when the intermediate entry is invalid. -/
def mapPageL1 (t : TableL1) (c va pa : Nat) (attrs : PagesAttributes) :
    Option (TableL1 × Nat) :=
  match t.e (idx1 va) with
  | some s =>
    match mapPageL0 s va pa attrs with
    | none => none
    | some s2 => some (⟨t.addr, fun j => if j = idx1 va then some s2 else t.e j⟩, c)
  | none =>
    match mapPageL0 ⟨c, fun _ => 0⟩ va pa attrs with
    | none => none
    | some s2 => some (⟨t.addr, fun j => if j = idx1 va then some s2 else t.e j⟩, c + 1)

/-- Modelled from the spec: mapping one page from level 2. -/
def mapPageL2 (t : TableL2) (c va pa : Nat) (attrs : PagesAttributes) :
    Option (TableL2 × Nat) :=
  match t.e (idx2 va) with
  | some s =>
    match mapPageL1 s c va pa attrs with
    | none => none
    | some (s2, c2) => some (⟨t.addr, fun j => if j = idx2 va then some s2 else t.e j⟩, c2)
  | none =>
    match mapPageL1 ⟨c, fun _ => none⟩ (c + 1) va pa attrs with
    | none => none
    | some (s2, c2) => some (⟨t.addr, fun j => if j = idx2 va then some s2 else t.e j⟩, c2)

/-- Modelled from the spec: mapping one page from the root. -/
def mapPageL3 (t : TableL3) (c va pa : Nat) (attrs : PagesAttributes) :
    Option (TableL3 × Nat) :=
  match t.e (idx3 va) with
  | some s =>
    match mapPageL2 s c va pa attrs with
    | none => none
    | some (s2, c2) => some (⟨t.addr, fun j => if j = idx3 va then some s2 else t.e j⟩, c2)
  | none =>
    match mapPageL2 ⟨c, fun _ => none⟩ (c + 1) va pa attrs with
    | none => none
    | some (s2, c2) => some (⟨t.addr, fun j => if j = idx3 va then some s2 else t.e j⟩, c2)

/-- Modelled from the spec: the page-by-page loop of `map_range`. -/
def mapLoop (attrs : PagesAttributes) :
    Nat → TableL3 → Nat → Nat → Nat → Option (TableL3 × Nat)
  | 0, t, c, _, _ => some (t, c)
  | n + 1, t, c, va, pa =>
    match mapPageL3 t c va pa attrs with
    | none => none
    | some (t2, c2) => mapLoop attrs n t2 c2 (va + PAGE_SIZE) (pa + PAGE_SIZE)

/-- Modelled from the spec: `map_range(table, va_start, va_end_inclusive,
pa_start, attrs)` of the missing `mmu_table.cpp` — maps consecutive pages from
`va_start` to `va_end` (both inclusive, page-aligned) to consecutive physical
pages from `pa_start`.  Fails if any target leaf is already valid. -/
def map_range (tbl : MMUTable) (va_start va_end pa_start : Nat)
    (attrs : PagesAttributes) : Option MMUTable :=
  match mapLoop attrs ((va_end - va_start) / PAGE_SIZE + 1) tbl.pgd tbl.allocNext
      va_start pa_start with
  | none => none
  | some (r, c) => some { tbl with pgd := r, allocNext := c }

/-- Modelled from the spec: the C++ call `map_range(&tbl, ...) -> bool`, which
mutates the table object in place on success and returns `false` leaving the
prior mappings intact on failure. -/
def map_range_call (tbl : MMUTable) (va_start va_end pa_start : Nat)
    (attrs : PagesAttributes) : Bool × MMUTable :=
  match map_range tbl va_start va_end pa_start attrs with
  | none => (false, tbl)
  | some t2 => (true, t2)

theorem lookupL0_fresh (c va : Nat) : lookupL0 ⟨c, fun _ => 0⟩ va = none := by
  unfold lookupL0
  simp

theorem lookupL1_fresh (c va : Nat) : lookupL1 ⟨c, fun _ => none⟩ va = none := rfl

theorem lookupL2_fresh (c va : Nat) : lookupL2 ⟨c, fun _ => none⟩ va = none := rfl

theorem mapPageL0_self (t t2 : TableL0) (va pa : Nat) (attrs : PagesAttributes)
    (hal : pa % 4096 = 0) (hlt : pa < 2 ^ 48)
    (h : mapPageL0 t va pa attrs = some t2) :
    lookupL0 t2 va = some (make_page_descriptor pa attrs true) := by
  unfold mapPageL0 at h
  by_cases hc : t.e (idx0 va) % 2 = 1
  · rw [if_pos hc] at h
    exact Option.noConfusion h
  · rw [if_neg hc] at h
    injection h with h2
    subst h2
    unfold lookupL0
    simp [make_page_descriptor_odd pa attrs true hal hlt]

theorem mapPageL0_frame (t t2 : TableL0) (va pa va0 : Nat) (attrs : PagesAttributes)
    (h : mapPageL0 t va pa attrs = some t2) (hne : idx0 va0 ≠ idx0 va) :
    lookupL0 t2 va0 = lookupL0 t va0 := by
  unfold mapPageL0 at h
  by_cases hc : t.e (idx0 va) % 2 = 1
  · rw [if_pos hc] at h
    exact Option.noConfusion h
  · rw [if_neg hc] at h
    injection h with h2
    subst h2
    unfold lookupL0
    simp [hne]

theorem mapPageL1_self (t t2 : TableL1) (c c2 va pa : Nat) (attrs : PagesAttributes)
    (hal : pa % 4096 = 0) (hlt : pa < 2 ^ 48)
    (h : mapPageL1 t c va pa attrs = some (t2, c2)) :
    lookupL1 t2 va = some (make_page_descriptor pa attrs true) := by
  unfold mapPageL1 at h
  cases he : t.e (idx1 va) with
  | some s =>
    simp only [he] at h
    cases hm : mapPageL0 s va pa attrs with
    | none => simp only [hm] at h; exact Option.noConfusion h
    | some s2 =>
      simp only [hm, Option.some.injEq, Prod.mk.injEq] at h
      obtain ⟨h2, _⟩ := h
      subst h2
      unfold lookupL1
      simpa using mapPageL0_self s s2 va pa attrs hal hlt hm
  | none =>
    simp only [he] at h
    cases hm : mapPageL0 ⟨c, fun _ => 0⟩ va pa attrs with
    | none => simp only [hm] at h; exact Option.noConfusion h
    | some s2 =>
      simp only [hm, Option.some.injEq, Prod.mk.injEq] at h
      obtain ⟨h2, _⟩ := h
      subst h2
      unfold lookupL1
      simpa using mapPageL0_self _ s2 va pa attrs hal hlt hm

theorem mapPageL1_frame (t t2 : TableL1) (c c2 va pa va0 : Nat) (attrs : PagesAttributes)
    (h : mapPageL1 t c va pa attrs = some (t2, c2))
    (hne : idx1 va0 ≠ idx1 va ∨ idx0 va0 ≠ idx0 va) :
    lookupL1 t2 va0 = lookupL1 t va0 := by
  unfold mapPageL1 at h
  cases he : t.e (idx1 va) with
  | some s =>
    simp only [he] at h
    cases hm : mapPageL0 s va pa attrs with
    | none => simp only [hm] at h; exact Option.noConfusion h
    | some s2 =>
      simp only [hm, Option.some.injEq, Prod.mk.injEq] at h
      obtain ⟨h2, _⟩ := h
      subst h2
      unfold lookupL1
      by_cases hid : idx1 va0 = idx1 va
      · rcases hne with hne | hne
        · exact absurd hid hne
        · simp only [hid, if_pos rfl, he]
          exact mapPageL0_frame s s2 va pa va0 attrs hm hne
      · simp [hid]
  | none =>
    simp only [he] at h
    cases hm : mapPageL0 ⟨c, fun _ => 0⟩ va pa attrs with
    | none => simp only [hm] at h; exact Option.noConfusion h
    | some s2 =>
      simp only [hm, Option.some.injEq, Prod.mk.injEq] at h
      obtain ⟨h2, _⟩ := h
      subst h2
      unfold lookupL1
      by_cases hid : idx1 va0 = idx1 va
      · rcases hne with hne | hne
        · exact absurd hid hne
        · simp only [hid, if_pos rfl, he]
          exact (mapPageL0_frame _ s2 va pa va0 attrs hm hne).trans (lookupL0_fresh c va0)
      · simp [hid]

theorem mapPageL2_self (t t2 : TableL2) (c c2 va pa : Nat) (attrs : PagesAttributes)
    (hal : pa % 4096 = 0) (hlt : pa < 2 ^ 48)
    (h : mapPageL2 t c va pa attrs = some (t2, c2)) :
    lookupL2 t2 va = some (make_page_descriptor pa attrs true) := by
  unfold mapPageL2 at h
  cases he : t.e (idx2 va) with
  | some s =>
    simp only [he] at h
    cases hm : mapPageL1 s c va pa attrs with
    | none => simp only [hm] at h; exact Option.noConfusion h
    | some r =>
      obtain ⟨s2, cc⟩ := r
      simp only [hm, Option.some.injEq, Prod.mk.injEq] at h
      obtain ⟨h2, _⟩ := h
      subst h2
      unfold lookupL2
      simpa using mapPageL1_self s s2 c cc va pa attrs hal hlt hm
  | none =>
    simp only [he] at h
    cases hm : mapPageL1 ⟨c, fun _ => none⟩ (c + 1) va pa attrs with
    | none => simp only [hm] at h; exact Option.noConfusion h
    | some r =>
      obtain ⟨s2, cc⟩ := r
      simp only [hm, Option.some.injEq, Prod.mk.injEq] at h
      obtain ⟨h2, _⟩ := h
      subst h2
      unfold lookupL2
      simpa using mapPageL1_self _ s2 (c + 1) cc va pa attrs hal hlt hm

theorem mapPageL2_frame (t t2 : TableL2) (c c2 va pa va0 : Nat) (attrs : PagesAttributes)
    (h : mapPageL2 t c va pa attrs = some (t2, c2))
    (hne : idx2 va0 ≠ idx2 va ∨ idx1 va0 ≠ idx1 va ∨ idx0 va0 ≠ idx0 va) :
    lookupL2 t2 va0 = lookupL2 t va0 := by
  unfold mapPageL2 at h
  cases he : t.e (idx2 va) with
  | some s =>
    simp only [he] at h
    cases hm : mapPageL1 s c va pa attrs with
    | none => simp only [hm] at h; exact Option.noConfusion h
    | some r =>
      obtain ⟨s2, cc⟩ := r
      simp only [hm, Option.some.injEq, Prod.mk.injEq] at h
      obtain ⟨h2, _⟩ := h
      subst h2
      unfold lookupL2
      by_cases hid : idx2 va0 = idx2 va
      · have hne2 : idx1 va0 ≠ idx1 va ∨ idx0 va0 ≠ idx0 va := by tauto
        simp only [hid, if_pos rfl, he]
        exact mapPageL1_frame s s2 c cc va pa va0 attrs hm hne2
      · simp [hid]
  | none =>
    simp only [he] at h
    cases hm : mapPageL1 ⟨c, fun _ => none⟩ (c + 1) va pa attrs with
    | none => simp only [hm] at h; exact Option.noConfusion h
    | some r =>
      obtain ⟨s2, cc⟩ := r
      simp only [hm, Option.some.injEq, Prod.mk.injEq] at h
      obtain ⟨h2, _⟩ := h
      subst h2
      unfold lookupL2
      by_cases hid : idx2 va0 = idx2 va
      · have hne2 : idx1 va0 ≠ idx1 va ∨ idx0 va0 ≠ idx0 va := by tauto
        simp only [hid, if_pos rfl, he]
        exact (mapPageL1_frame _ s2 (c + 1) cc va pa va0 attrs hm hne2).trans (lookupL1_fresh c va0)
      · simp [hid]

theorem mapPageL3_self (t t2 : TableL3) (c c2 va pa : Nat) (attrs : PagesAttributes)
    (hal : pa % 4096 = 0) (hlt : pa < 2 ^ 48)
    (h : mapPageL3 t c va pa attrs = some (t2, c2)) :
    lookupL3 t2 va = some (make_page_descriptor pa attrs true) := by
  unfold mapPageL3 at h
  cases he : t.e (idx3 va) with
  | some s =>
    simp only [he] at h
    cases hm : mapPageL2 s c va pa attrs with
    | none => simp only [hm] at h; exact Option.noConfusion h
    | some r =>
      obtain ⟨s2, cc⟩ := r
      simp only [hm, Option.some.injEq, Prod.mk.injEq] at h
      obtain ⟨h2, _⟩ := h
      subst h2
      unfold lookupL3
      simpa using mapPageL2_self s s2 c cc va pa attrs hal hlt hm
  | none =>
    simp only [he] at h
    cases hm : mapPageL2 ⟨c, fun _ => none⟩ (c + 1) va pa attrs with
    | none => simp only [hm] at h; exact Option.noConfusion h
    | some r =>
      obtain ⟨s2, cc⟩ := r
      simp only [hm, Option.some.injEq, Prod.mk.injEq] at h
      obtain ⟨h2, _⟩ := h
      subst h2
      unfold lookupL3
      simpa using mapPageL2_self _ s2 (c + 1) cc va pa attrs hal hlt hm

theorem mapPageL3_frame (t t2 : TableL3) (c c2 va pa va0 : Nat) (attrs : PagesAttributes)
    (h : mapPageL3 t c va pa attrs = some (t2, c2))
    (hne : pageNum va0 ≠ pageNum va) :
    lookupL3 t2 va0 = lookupL3 t va0 := by
  have hd : ¬(idx0 va0 = idx0 va ∧ idx1 va0 = idx1 va ∧ idx2 va0 = idx2 va ∧
      idx3 va0 = idx3 va) := fun hc => hne ((pageNum_eq_iff va0 va).mpr hc)
  unfold mapPageL3 at h
  cases he : t.e (idx3 va) with
  | some s =>
    simp only [he] at h
    cases hm : mapPageL2 s c va pa attrs with
    | none => simp only [hm] at h; exact Option.noConfusion h
    | some r =>
      obtain ⟨s2, cc⟩ := r
      simp only [hm, Option.some.injEq, Prod.mk.injEq] at h
      obtain ⟨h2, _⟩ := h
      subst h2
      unfold lookupL3
      by_cases hid : idx3 va0 = idx3 va
      · have hne2 : idx2 va0 ≠ idx2 va ∨ idx1 va0 ≠ idx1 va ∨ idx0 va0 ≠ idx0 va := by tauto
        simp only [hid, if_pos rfl, he]
        exact mapPageL2_frame s s2 c cc va pa va0 attrs hm hne2
      · simp [hid]
  | none =>
    simp only [he] at h
    cases hm : mapPageL2 ⟨c, fun _ => none⟩ (c + 1) va pa attrs with
    | none => simp only [hm] at h; exact Option.noConfusion h
    | some r =>
      obtain ⟨s2, cc⟩ := r
      simp only [hm, Option.some.injEq, Prod.mk.injEq] at h
      obtain ⟨h2, _⟩ := h
      subst h2
      unfold lookupL3
      by_cases hid : idx3 va0 = idx3 va
      · have hne2 : idx2 va0 ≠ idx2 va ∨ idx1 va0 ≠ idx1 va ∨ idx0 va0 ≠ idx0 va := by tauto
        simp only [hid, if_pos rfl, he]
        exact (mapPageL2_frame _ s2 (c + 1) cc va pa va0 attrs hm hne2).trans (lookupL2_fresh c va0)
      · simp [hid]

theorem mapPageL0_of_lookup (t : TableL0) (va pa : Nat) (attrs : PagesAttributes) (x : Nat)
    (h : lookupL0 t va = some x) : mapPageL0 t va pa attrs = none := by
  unfold lookupL0 at h
  by_cases hc : t.e (idx0 va) % 2 = 1
  · simp [mapPageL0, hc]
  · rw [if_neg hc] at h
    exact Option.noConfusion h

theorem mapPageL1_of_lookup (t : TableL1) (c va pa : Nat) (attrs : PagesAttributes) (x : Nat)
    (h : lookupL1 t va = some x) : mapPageL1 t c va pa attrs = none := by
  unfold lookupL1 at h
  unfold mapPageL1
  cases he : t.e (idx1 va) with
  | none => rw [he] at h; exact Option.noConfusion h
  | some s =>
    rw [he] at h
    simp [he, mapPageL0_of_lookup s va pa attrs x h]

theorem mapPageL2_of_lookup (t : TableL2) (c va pa : Nat) (attrs : PagesAttributes) (x : Nat)
    (h : lookupL2 t va = some x) : mapPageL2 t c va pa attrs = none := by
  unfold lookupL2 at h
  unfold mapPageL2
  cases he : t.e (idx2 va) with
  | none => rw [he] at h; exact Option.noConfusion h
  | some s =>
    rw [he] at h
    simp [he, mapPageL1_of_lookup s c va pa attrs x h]

theorem mapPageL3_of_lookup (t : TableL3) (c va pa : Nat) (attrs : PagesAttributes) (x : Nat)
    (h : lookupL3 t va = some x) : mapPageL3 t c va pa attrs = none := by
  unfold lookupL3 at h
  unfold mapPageL3
  cases he : t.e (idx3 va) with
  | none => rw [he] at h; exact Option.noConfusion h
  | some s =>
    rw [he] at h
    simp [he, mapPageL2_of_lookup s c va pa attrs x h]

theorem mapLoop_frame (attrs : PagesAttributes) (n : Nat) :
    ∀ (t : TableL3) (c va pa : Nat) (t2 : TableL3) (c2 : Nat),
      mapLoop attrs n t c va pa = some (t2, c2) →
      ∀ va0, (∀ j, j < n → pageNum va0 ≠ pageNum (va + PAGE_SIZE * j)) →
      lookupL3 t2 va0 = lookupL3 t va0 := by
  induction n with
  | zero =>
    intro t c va pa t2 c2 h va0 _
    simp only [mapLoop, Option.some.injEq, Prod.mk.injEq] at h
    obtain ⟨h1, _⟩ := h
    subst h1
    rfl
  | succ n ih =>
    intro t c va pa t2 c2 h va0 hva0
    unfold mapLoop at h
    cases hm : mapPageL3 t c va pa attrs with
    | none => rw [hm] at h; exact Option.noConfusion h
    | some r =>
      obtain ⟨t1, c1⟩ := r
      simp only [hm] at h
      have htail : lookupL3 t2 va0 = lookupL3 t1 va0 := by
        refine ih t1 c1 (va + PAGE_SIZE) (pa + PAGE_SIZE) t2 c2 h va0 ?_
        intro j hj
        have := hva0 (j + 1) (by omega)
        have harith : va + PAGE_SIZE + PAGE_SIZE * j = va + PAGE_SIZE * (j + 1) := by
          unfold PAGE_SIZE
          ring
        rw [harith]
        exact this
      have hstep : lookupL3 t1 va0 = lookupL3 t va0 := by
        refine mapPageL3_frame t t1 c c1 va pa va0 attrs hm ?_
        have := hva0 0 (by omega)
        simpa using this
      rw [htail, hstep]

theorem mapLoop_maps (attrs : PagesAttributes) (n : Nat) :
    ∀ (t : TableL3) (c va pa : Nat) (t2 : TableL3) (c2 : Nat),
      mapLoop attrs n t c va pa = some (t2, c2) →
      va % 4096 = 0 → pa % 4096 = 0 →
      va + 4096 * n ≤ 2 ^ 48 → pa + 4096 * n ≤ 2 ^ 48 →
      ∀ k, k < n →
        lookupL3 t2 (va + 4096 * k) =
          some (make_page_descriptor (pa + 4096 * k) attrs true) := by
  induction n with
  | zero => intro t c va pa t2 c2 _ _ _ _ _ k hk; omega
  | succ n ih =>
    intro t c va pa t2 c2 h hva hpa hvb hpb k hk
    unfold mapLoop at h
    cases hm : mapPageL3 t c va pa attrs with
    | none => rw [hm] at h; exact Option.noConfusion h
    | some r =>
      obtain ⟨t1, c1⟩ := r
      simp only [hm] at h
      cases k with
      | zero =>
        have hself : lookupL3 t1 va = some (make_page_descriptor pa attrs true) :=
          mapPageL3_self t t1 c c1 va pa attrs hpa (by omega) hm
        have hframe : lookupL3 t2 va = lookupL3 t1 va := by
          refine mapLoop_frame attrs n t1 c1 (va + PAGE_SIZE) (pa + PAGE_SIZE) t2 c2 h va ?_
          intro j hj
          have h1 : pageNum va = va / 4096 := by
            have := pageNum_add va 0 hva (by omega)
            simpa using this
          have h2 : pageNum (va + PAGE_SIZE + PAGE_SIZE * j) = va / 4096 + (j + 1) := by
            have harith : va + PAGE_SIZE + PAGE_SIZE * j = va + 4096 * (j + 1) := by
              unfold PAGE_SIZE
              ring
            rw [harith]
            exact pageNum_add va (j + 1) hva (by omega)
          rw [h1, h2]
          omega
        simpa using hframe.trans hself
      | succ k =>
        have harith1 : va + 4096 * (k + 1) = va + PAGE_SIZE + 4096 * k := by
          unfold PAGE_SIZE
          ring
        have harith2 : pa + 4096 * (k + 1) = pa + PAGE_SIZE + 4096 * k := by
          unfold PAGE_SIZE
          ring
        rw [harith1, harith2]
        refine ih t1 c1 (va + PAGE_SIZE) (pa + PAGE_SIZE) t2 c2 h ?_ ?_ ?_ ?_ k (by omega)
        · unfold PAGE_SIZE
          omega
        · unfold PAGE_SIZE
          omega
        · unfold PAGE_SIZE
          omega
        · unfold PAGE_SIZE
          omega

theorem mapLoop_fails (attrs : PagesAttributes) (n : Nat) :
    ∀ (t : TableL3) (c va pa m : Nat) (x : Nat), m < n →
      va % 4096 = 0 → va + 4096 * n ≤ 2 ^ 48 →
      lookupL3 t (va + 4096 * m) = some x →
      mapLoop attrs n t c va pa = none := by
  induction n with
  | zero => intro t c va pa m x hm; omega
  | succ n ih =>
    intro t c va pa m x hmn hva hvb hsome
    unfold mapLoop
    cases m with
    | zero =>
      have : lookupL3 t va = some x := by simpa using hsome
      rw [mapPageL3_of_lookup t c va pa attrs x this]
    | succ m =>
      cases hm : mapPageL3 t c va pa attrs with
      | none => rfl
      | some r =>
        obtain ⟨t1, c1⟩ := r
        have hframe : lookupL3 t1 (va + 4096 * (m + 1)) = lookupL3 t (va + 4096 * (m + 1)) := by
          refine mapPageL3_frame t t1 c c1 va pa (va + 4096 * (m + 1)) attrs hm ?_
          have h1 : pageNum va = va / 4096 := by
            have := pageNum_add va 0 hva (by omega)
            simpa using this
          have h2 : pageNum (va + 4096 * (m + 1)) = va / 4096 + (m + 1) :=
            pageNum_add va (m + 1) hva (by omega)
          rw [h1, h2]
          omega
        have hsome1 : lookupL3 t1 (va + PAGE_SIZE + 4096 * m) = some x := by
          have harith : va + PAGE_SIZE + 4096 * m = va + 4096 * (m + 1) := by
            unfold PAGE_SIZE
            ring
          rw [harith, hframe]
          exact hsome
        have := ih t1 c1 (va + PAGE_SIZE) (pa + PAGE_SIZE) m x (by omega) (by unfold PAGE_SIZE; omega)
          (by unfold PAGE_SIZE; omega) hsome1
        simp [this]

/-- C1 — Map/translate agreement: if `map_range` succeeds on a table where no
page of `[va_start, va_end]` was previously mapped, then for every page-aligned
`va` in `[va_start, va_end]`, `translate` returns `pa_start + (va - va_start)`. -/
theorem claim_C1_map_translate_agreement (tbl tbl2 : MMUTable)
    (va_start va_end pa_start : Nat) (attrs : PagesAttributes)
    (hvs : va_start % PAGE_SIZE = 0) (hve : va_end % PAGE_SIZE = 0)
    (hps : pa_start % PAGE_SIZE = 0) (hle : va_start ≤ va_end)
    (hvb : va_end + PAGE_SIZE ≤ 2 ^ 48)
    (hpb : pa_start + (va_end - va_start) + PAGE_SIZE ≤ 2 ^ 48)
    (hfresh : ∀ va, va % PAGE_SIZE = 0 → va_start ≤ va → va ≤ va_end →
      tbl.translate va = none)
    (hsucc : map_range tbl va_start va_end pa_start attrs = some tbl2) :
    ∀ va, va % PAGE_SIZE = 0 → va_start ≤ va → va ≤ va_end →
      tbl2.translate va = some (pa_start + (va - va_start)) := by
  intro va hal h1 h2
  unfold map_range at hsucc
  cases hml : mapLoop attrs ((va_end - va_start) / PAGE_SIZE + 1) tbl.pgd tbl.allocNext
      va_start pa_start with
  | none => rw [hml] at hsucc; exact Option.noConfusion hsucc
  | some r =>
    obtain ⟨r1, c1⟩ := r
    simp only [hml, Option.some.injEq] at hsucc
    subst hsucc
    have hk : va = va_start + 4096 * ((va - va_start) / 4096) := by
      unfold PAGE_SIZE at hvs hal
      omega
    have hkn : (va - va_start) / 4096 < (va_end - va_start) / PAGE_SIZE + 1 := by
      unfold PAGE_SIZE
      omega
    have hleaf := mapLoop_maps attrs ((va_end - va_start) / PAGE_SIZE + 1) tbl.pgd
      tbl.allocNext va_start pa_start r1 c1 hml hvs hps
      (by unfold PAGE_SIZE at *; omega) (by unfold PAGE_SIZE at *; omega)
      ((va - va_start) / 4096) hkn
    rw [← hk] at hleaf
    unfold MMUTable.translate lookupLeaf
    rw [hleaf, Option.map_some']
    have hpa_al : (pa_start + 4096 * ((va - va_start) / 4096)) % 4096 = 0 := by
      unfold PAGE_SIZE at hps
      omega
    have hpa_lt : pa_start + 4096 * ((va - va_start) / 4096) < 2 ^ 48 := by
      unfold PAGE_SIZE at *
      omega
    rw [decodedPA_make_page_descriptor _ attrs true hpa_al hpa_lt]
    unfold PAGE_SIZE at hal ⊢
    congr 1
    omega

/-- C2 — No silent overwrite: mapping a range containing an already-mapped page
returns failure and leaves the prior mapping intact: `translate` is unchanged
for every address. -/
theorem claim_C2_no_silent_overwrite (tbl : MMUTable)
    (va_start va_end pa_start va0 x : Nat) (attrs : PagesAttributes)
    (hvs : va_start % PAGE_SIZE = 0)
    (hle : va_start ≤ va_end) (hvb : va_end + PAGE_SIZE ≤ 2 ^ 48)
    (hva0 : va0 % PAGE_SIZE = 0) (h1 : va_start ≤ va0) (h2 : va0 ≤ va_end)
    (hmapped : lookupLeaf tbl va0 = some x) :
    (map_range_call tbl va_start va_end pa_start attrs).1 = false ∧
      ∀ va, (map_range_call tbl va_start va_end pa_start attrs).2.translate va =
        tbl.translate va := by
  have hva0eq : va0 = va_start + 4096 * ((va0 - va_start) / 4096) := by
    unfold PAGE_SIZE at hvs hva0
    omega
  have hnone : map_range tbl va_start va_end pa_start attrs = none := by
    unfold map_range
    have hloop := mapLoop_fails attrs ((va_end - va_start) / PAGE_SIZE + 1) tbl.pgd
      tbl.allocNext va_start pa_start ((va0 - va_start) / 4096) x
      (by unfold PAGE_SIZE at *; omega) hvs (by unfold PAGE_SIZE at *; omega)
      (by rw [← hva0eq]; exact hmapped)
    rw [hloop]
  constructor
  · simp [map_range_call, hnone]
  · intro va
    simp [map_range_call, hnone]

/-- Empty kernel table (fresh root page at address 0, next allocation 1,
no free callback) used by the concrete witnesses. -/
def demoTbl0 : MMUTable := ⟨⟨0, fun _ => none⟩, 1, false⟩

/-- Attribute set used by the concrete witnesses. -/
def demoAttrs : PagesAttributes :=
  ⟨.InnerShareable, .NeverExecute, .ReadWrite, .Privileged, .Normal⟩

/-- Result of mapping the two pages `[0x5000, 0x6000] → 0x8000` into the empty
table. -/
def demoMapT : MMUTable :=
  (map_range demoTbl0 0x5000 0x6000 0x8000 demoAttrs).getD demoTbl0

/-- Witness for C1: mapping `[0x5000, 0x6000] → 0x8000` makes `0x6000`
translate to `0x9000`. -/
theorem claim_C1_map_translate_agreement_witness :
    demoMapT.translate 0x6000 = some 0x9000 :=
  claim_C1_map_translate_agreement demoTbl0 demoMapT 0x5000 0x6000 0x8000 demoAttrs
    (by decide) (by decide) (by decide) (by decide) (by decide) (by decide)
    (fun va h1 h2 h3 => rfl) (by rfl) 0x6000 (by decide) (by decide) (by decide)

/-- Witness for C2: re-mapping the already-mapped page `0x5000` fails and
changes no translation. -/
theorem claim_C2_no_silent_overwrite_witness :
    (map_range_call demoMapT 0x5000 0x6000 0x9000 demoAttrs).1 = false ∧
      ∀ va, (map_range_call demoMapT 0x5000 0x6000 0x9000 demoAttrs).2.translate va =
        demoMapT.translate va :=
  claim_C2_no_silent_overwrite demoMapT 0x5000 0x6000 0x9000 0x5000
    (make_page_descriptor 0x8000 demoAttrs true) demoAttrs
    (by decide) (by decide) (by decide) (by decide) (by decide) (by decide) (by rfl)

theorem decodedPA_mod (e : Nat) : decodedPA e % 4096 = 0 := by
  unfold decodedPA
  omega

theorem decodedPA_lt (e : Nat) : decodedPA e < 2 ^ 48 := by
  unfold decodedPA
  omega

/-- Modelled from the spec: `change_attr_range` at the last level — requires
the leaf to be valid (else `NotMapped`), decodes its current output physical
address, and rewrites the leaf with the same address but new attributes. -/
def changeAttrL0 (t : TableL0) (va : Nat) (attrs : PagesAttributes) : Option TableL0 :=
  if t.e (idx0 va) % 2 = 1 then
    some ⟨t.addr, fun j => if j = idx0 va then
      make_page_descriptor (decodedPA (t.e (idx0 va))) attrs true else t.e j⟩
  else none

/-- Modelled from the spec: attribute change walking from level 1. -/
def changeAttrL1 (t : TableL1) (va : Nat) (attrs : PagesAttributes) : Option TableL1 :=
  match t.e (idx1 va) with
  | none => none
  | some s =>
    match changeAttrL0 s va attrs with
    | none => none
    | some s2 => some ⟨t.addr, fun j => if j = idx1 va then some s2 else t.e j⟩

/-- Modelled from the spec: attribute change walking from level 2. -/
def changeAttrL2 (t : TableL2) (va : Nat) (attrs : PagesAttributes) : Option TableL2 :=
  match t.e (idx2 va) with
  | none => none
  | some s =>
    match changeAttrL1 s va attrs with
    | none => none
    | some s2 => some ⟨t.addr, fun j => if j = idx2 va then some s2 else t.e j⟩

/-- Modelled from the spec: attribute change walking from the root. -/
def changeAttrL3 (t : TableL3) (va : Nat) (attrs : PagesAttributes) : Option TableL3 :=
  match t.e (idx3 va) with
  | none => none
  | some s =>
    match changeAttrL2 s va attrs with
    | none => none
    | some s2 => some ⟨t.addr, fun j => if j = idx3 va then some s2 else t.e j⟩

/-- Modelled from the spec: the page-by-page loop of `change_attr_range`. -/
def changeAttrLoop (attrs : PagesAttributes) : Nat → TableL3 → Nat → Option TableL3
  | 0, t, _ => some t
  | n + 1, t, va =>
    match changeAttrL3 t va attrs with
    | none => none
    | some t2 => changeAttrLoop attrs n t2 (va + PAGE_SIZE)

/-- Modelled from the spec: `change_attr_range(table, va_start,
va_end_inclusive, attrs)` of the missing `mmu_table.cpp` — for every page in
the inclusive range, requires it to be validly mapped (else `NotMapped`) and
rewrites the leaf with the same output address and the new attributes. -/
def change_attr_range (tbl : MMUTable) (va_start va_end : Nat)
    (attrs : PagesAttributes) : Option MMUTable :=
  match changeAttrLoop attrs ((va_end - va_start) / PAGE_SIZE + 1) tbl.pgd va_start with
  | none => none
  | some r => some { tbl with pgd := r }

/-- Observable attributes of the leaf covering `va`. -/
def leafAttrs (tbl : MMUTable) (va : Nat) : Option PagesAttributes :=
  (lookupLeaf tbl va).map decodeAttrs

theorem lookupL3_congr (t : TableL3) (va0 va : Nat) (h : pageNum va0 = pageNum va) :
    lookupL3 t va0 = lookupL3 t va := by
  obtain ⟨h0, h1, h2, h3⟩ := (pageNum_eq_iff va0 va).mp h
  unfold lookupL3 lookupL2 lookupL1 lookupL0
  rw [h0, h1, h2, h3]

theorem changeAttrL0_self (t t2 : TableL0) (va : Nat) (attrs : PagesAttributes)
    (h : changeAttrL0 t va attrs = some t2) :
    ∃ x, lookupL0 t va = some x ∧
      lookupL0 t2 va = some (make_page_descriptor (decodedPA x) attrs true) := by
  unfold changeAttrL0 at h
  by_cases hc : t.e (idx0 va) % 2 = 1
  · rw [if_pos hc] at h
    injection h with h2
    subst h2
    refine ⟨t.e (idx0 va), ?_, ?_⟩
    · unfold lookupL0
      rw [if_pos hc]
    · unfold lookupL0
      simp [make_page_descriptor_odd _ attrs true (decodedPA_mod _) (decodedPA_lt _)]
  · rw [if_neg hc] at h
    exact Option.noConfusion h

theorem changeAttrL1_self (t t2 : TableL1) (va : Nat) (attrs : PagesAttributes)
    (h : changeAttrL1 t va attrs = some t2) :
    ∃ x, lookupL1 t va = some x ∧
      lookupL1 t2 va = some (make_page_descriptor (decodedPA x) attrs true) := by
  unfold changeAttrL1 at h
  cases he : t.e (idx1 va) with
  | none => simp only [he] at h; exact Option.noConfusion h
  | some s =>
    simp only [he] at h
    cases hm : changeAttrL0 s va attrs with
    | none => simp only [hm] at h; exact Option.noConfusion h
    | some s2 =>
      simp only [hm, Option.some.injEq] at h
      subst h
      obtain ⟨x, hx1, hx2⟩ := changeAttrL0_self s s2 va attrs hm
      refine ⟨x, ?_, ?_⟩
      · unfold lookupL1
        rw [he]
        exact hx1
      · unfold lookupL1
        simpa using hx2

theorem changeAttrL2_self (t t2 : TableL2) (va : Nat) (attrs : PagesAttributes)
    (h : changeAttrL2 t va attrs = some t2) :
    ∃ x, lookupL2 t va = some x ∧
      lookupL2 t2 va = some (make_page_descriptor (decodedPA x) attrs true) := by
  unfold changeAttrL2 at h
  cases he : t.e (idx2 va) with
  | none => simp only [he] at h; exact Option.noConfusion h
  | some s =>
    simp only [he] at h
    cases hm : changeAttrL1 s va attrs with
    | none => simp only [hm] at h; exact Option.noConfusion h
    | some s2 =>
      simp only [hm, Option.some.injEq] at h
      subst h
      obtain ⟨x, hx1, hx2⟩ := changeAttrL1_self s s2 va attrs hm
      refine ⟨x, ?_, ?_⟩
      · unfold lookupL2
        rw [he]
        exact hx1
      · unfold lookupL2
        simpa using hx2

theorem changeAttrL3_self (t t2 : TableL3) (va : Nat) (attrs : PagesAttributes)
    (h : changeAttrL3 t va attrs = some t2) :
    ∃ x, lookupL3 t va = some x ∧
      lookupL3 t2 va = some (make_page_descriptor (decodedPA x) attrs true) := by
  unfold changeAttrL3 at h
  cases he : t.e (idx3 va) with
  | none => simp only [he] at h; exact Option.noConfusion h
  | some s =>
    simp only [he] at h
    cases hm : changeAttrL2 s va attrs with
    | none => simp only [hm] at h; exact Option.noConfusion h
    | some s2 =>
      simp only [hm, Option.some.injEq] at h
      subst h
      obtain ⟨x, hx1, hx2⟩ := changeAttrL2_self s s2 va attrs hm
      refine ⟨x, ?_, ?_⟩
      · unfold lookupL3
        rw [he]
        exact hx1
      · unfold lookupL3
        simpa using hx2

theorem changeAttrL0_frame (t t2 : TableL0) (va va0 : Nat) (attrs : PagesAttributes)
    (h : changeAttrL0 t va attrs = some t2) (hne : idx0 va0 ≠ idx0 va) :
    lookupL0 t2 va0 = lookupL0 t va0 := by
  unfold changeAttrL0 at h
  by_cases hc : t.e (idx0 va) % 2 = 1
  · rw [if_pos hc] at h
    injection h with h2
    subst h2
    unfold lookupL0
    simp [hne]
  · rw [if_neg hc] at h
    exact Option.noConfusion h

theorem changeAttrL1_frame (t t2 : TableL1) (va va0 : Nat) (attrs : PagesAttributes)
    (h : changeAttrL1 t va attrs = some t2)
    (hne : idx1 va0 ≠ idx1 va ∨ idx0 va0 ≠ idx0 va) :
    lookupL1 t2 va0 = lookupL1 t va0 := by
  unfold changeAttrL1 at h
  cases he : t.e (idx1 va) with
  | none => simp only [he] at h; exact Option.noConfusion h
  | some s =>
    simp only [he] at h
    cases hm : changeAttrL0 s va attrs with
    | none => simp only [hm] at h; exact Option.noConfusion h
    | some s2 =>
      simp only [hm, Option.some.injEq] at h
      subst h
      unfold lookupL1
      by_cases hid : idx1 va0 = idx1 va
      · rcases hne with hne | hne
        · exact absurd hid hne
        · simp only [hid, if_pos rfl, he]
          exact changeAttrL0_frame s s2 va va0 attrs hm hne
      · simp [hid]

theorem changeAttrL2_frame (t t2 : TableL2) (va va0 : Nat) (attrs : PagesAttributes)
    (h : changeAttrL2 t va attrs = some t2)
    (hne : idx2 va0 ≠ idx2 va ∨ idx1 va0 ≠ idx1 va ∨ idx0 va0 ≠ idx0 va) :
    lookupL2 t2 va0 = lookupL2 t va0 := by
  unfold changeAttrL2 at h
  cases he : t.e (idx2 va) with
  | none => simp only [he] at h; exact Option.noConfusion h
  | some s =>
    simp only [he] at h
    cases hm : changeAttrL1 s va attrs with
    | none => simp only [hm] at h; exact Option.noConfusion h
    | some s2 =>
      simp only [hm, Option.some.injEq] at h
      subst h
      unfold lookupL2
      by_cases hid : idx2 va0 = idx2 va
      · have hne2 : idx1 va0 ≠ idx1 va ∨ idx0 va0 ≠ idx0 va := by tauto
        simp only [hid, if_pos rfl, he]
        exact changeAttrL1_frame s s2 va va0 attrs hm hne2
      · simp [hid]

theorem changeAttrL3_frame (t t2 : TableL3) (va va0 : Nat) (attrs : PagesAttributes)
    (h : changeAttrL3 t va attrs = some t2)
    (hne : pageNum va0 ≠ pageNum va) :
    lookupL3 t2 va0 = lookupL3 t va0 := by
  have hd : ¬(idx0 va0 = idx0 va ∧ idx1 va0 = idx1 va ∧ idx2 va0 = idx2 va ∧
      idx3 va0 = idx3 va) := fun hc => hne ((pageNum_eq_iff va0 va).mpr hc)
  unfold changeAttrL3 at h
  cases he : t.e (idx3 va) with
  | none => simp only [he] at h; exact Option.noConfusion h
  | some s =>
    simp only [he] at h
    cases hm : changeAttrL2 s va attrs with
    | none => simp only [hm] at h; exact Option.noConfusion h
    | some s2 =>
      simp only [hm, Option.some.injEq] at h
      subst h
      unfold lookupL3
      by_cases hid : idx3 va0 = idx3 va
      · have hne2 : idx2 va0 ≠ idx2 va ∨ idx1 va0 ≠ idx1 va ∨ idx0 va0 ≠ idx0 va := by tauto
        simp only [hid, if_pos rfl, he]
        exact changeAttrL2_frame s s2 va va0 attrs hm hne2
      · simp [hid]

theorem changeAttrL3_isSome (t t2 : TableL3) (va va0 : Nat) (attrs : PagesAttributes)
    (h : changeAttrL3 t va attrs = some t2) :
    (lookupL3 t2 va0).isSome = (lookupL3 t va0).isSome := by
  by_cases hp : pageNum va0 = pageNum va
  · obtain ⟨x, hx1, hx2⟩ := changeAttrL3_self t t2 va attrs h
    rw [lookupL3_congr t2 va0 va hp, lookupL3_congr t va0 va hp, hx1, hx2]
    rfl
  · rw [changeAttrL3_frame t t2 va va0 attrs h hp]

theorem changeAttrL0_of_lookup (t : TableL0) (va : Nat) (attrs : PagesAttributes) (x : Nat)
    (h : lookupL0 t va = some x) : ∃ t2, changeAttrL0 t va attrs = some t2 := by
  unfold lookupL0 at h
  unfold changeAttrL0
  by_cases hc : t.e (idx0 va) % 2 = 1
  · rw [if_pos hc]
    exact ⟨_, rfl⟩
  · rw [if_neg hc] at h
    exact Option.noConfusion h

theorem changeAttrL1_of_lookup (t : TableL1) (va : Nat) (attrs : PagesAttributes) (x : Nat)
    (h : lookupL1 t va = some x) : ∃ t2, changeAttrL1 t va attrs = some t2 := by
  unfold lookupL1 at h
  unfold changeAttrL1
  cases he : t.e (idx1 va) with
  | none => rw [he] at h; exact Option.noConfusion h
  | some s =>
    rw [he] at h
    obtain ⟨s2, hs2⟩ := changeAttrL0_of_lookup s va attrs x h
    simp [he, hs2]

theorem changeAttrL2_of_lookup (t : TableL2) (va : Nat) (attrs : PagesAttributes) (x : Nat)
    (h : lookupL2 t va = some x) : ∃ t2, changeAttrL2 t va attrs = some t2 := by
  unfold lookupL2 at h
  unfold changeAttrL2
  cases he : t.e (idx2 va) with
  | none => rw [he] at h; exact Option.noConfusion h
  | some s =>
    rw [he] at h
    obtain ⟨s2, hs2⟩ := changeAttrL1_of_lookup s va attrs x h
    simp [he, hs2]

theorem changeAttrL3_of_lookup (t : TableL3) (va : Nat) (attrs : PagesAttributes) (x : Nat)
    (h : lookupL3 t va = some x) : ∃ t2, changeAttrL3 t va attrs = some t2 := by
  unfold lookupL3 at h
  unfold changeAttrL3
  cases he : t.e (idx3 va) with
  | none => rw [he] at h; exact Option.noConfusion h
  | some s =>
    rw [he] at h
    obtain ⟨s2, hs2⟩ := changeAttrL2_of_lookup s va attrs x h
    simp [he, hs2]

theorem changeAttrLoop_frame (attrs : PagesAttributes) (n : Nat) :
    ∀ (t : TableL3) (va : Nat) (t2 : TableL3),
      changeAttrLoop attrs n t va = some t2 →
      ∀ va0, (∀ j, j < n → pageNum va0 ≠ pageNum (va + PAGE_SIZE * j)) →
      lookupL3 t2 va0 = lookupL3 t va0 := by
  induction n with
  | zero =>
    intro t va t2 h va0 _
    simp only [changeAttrLoop, Option.some.injEq] at h
    subst h
    rfl
  | succ n ih =>
    intro t va t2 h va0 hva0
    unfold changeAttrLoop at h
    cases hm : changeAttrL3 t va attrs with
    | none => rw [hm] at h; exact Option.noConfusion h
    | some t1 =>
      simp only [hm] at h
      have htail : lookupL3 t2 va0 = lookupL3 t1 va0 := by
        refine ih t1 (va + PAGE_SIZE) t2 h va0 ?_
        intro j hj
        have := hva0 (j + 1) (by omega)
        have harith : va + PAGE_SIZE + PAGE_SIZE * j = va + PAGE_SIZE * (j + 1) := by
          unfold PAGE_SIZE
          ring
        rw [harith]
        exact this
      have hstep : lookupL3 t1 va0 = lookupL3 t va0 := by
        refine changeAttrL3_frame t t1 va va0 attrs hm ?_
        have := hva0 0 (by omega)
        simpa using this
      rw [htail, hstep]

theorem changeAttrLoop_isSome (attrs : PagesAttributes) (n : Nat) :
    ∀ (t : TableL3) (va : Nat) (t2 : TableL3),
      changeAttrLoop attrs n t va = some t2 →
      ∀ va0, (lookupL3 t2 va0).isSome = (lookupL3 t va0).isSome := by
  induction n with
  | zero =>
    intro t va t2 h va0
    simp only [changeAttrLoop, Option.some.injEq] at h
    subst h
    rfl
  | succ n ih =>
    intro t va t2 h va0
    unfold changeAttrLoop at h
    cases hm : changeAttrL3 t va attrs with
    | none => rw [hm] at h; exact Option.noConfusion h
    | some t1 =>
      simp only [hm] at h
      rw [ih t1 (va + PAGE_SIZE) t2 h va0, changeAttrL3_isSome t t1 va va0 attrs hm]

theorem changeAttrLoop_mapped (attrs : PagesAttributes) (n : Nat) :
    ∀ (t : TableL3) (va : Nat) (t2 : TableL3),
      changeAttrLoop attrs n t va = some t2 →
      ∀ k, k < n → (lookupL3 t (va + 4096 * k)).isSome := by
  induction n with
  | zero => intro t va t2 _ k hk; omega
  | succ n ih =>
    intro t va t2 h k hk
    unfold changeAttrLoop at h
    cases hm : changeAttrL3 t va attrs with
    | none => rw [hm] at h; exact Option.noConfusion h
    | some t1 =>
      simp only [hm] at h
      cases k with
      | zero =>
        obtain ⟨x, hx1, _⟩ := changeAttrL3_self t t1 va attrs hm
        simp [hx1]
      | succ k =>
        have harith : va + 4096 * (k + 1) = va + PAGE_SIZE + 4096 * k := by
          unfold PAGE_SIZE
          ring
        rw [harith, ← changeAttrL3_isSome t t1 va (va + PAGE_SIZE + 4096 * k) attrs hm]
        exact ih t1 (va + PAGE_SIZE) t2 h k (by omega)

theorem changeAttrLoop_self (attrs : PagesAttributes) (n : Nat) :
    ∀ (t : TableL3) (va : Nat) (t2 : TableL3),
      changeAttrLoop attrs n t va = some t2 →
      va % 4096 = 0 → va + 4096 * n ≤ 2 ^ 48 →
      ∀ k, k < n → ∃ x, lookupL3 t (va + 4096 * k) = some x ∧
        lookupL3 t2 (va + 4096 * k) =
          some (make_page_descriptor (decodedPA x) attrs true) := by
  induction n with
  | zero => intro t va t2 _ _ _ k hk; omega
  | succ n ih =>
    intro t va t2 h hva hvb k hk
    unfold changeAttrLoop at h
    cases hm : changeAttrL3 t va attrs with
    | none => rw [hm] at h; exact Option.noConfusion h
    | some t1 =>
      simp only [hm] at h
      cases k with
      | zero =>
        obtain ⟨x, hx1, hx2⟩ := changeAttrL3_self t t1 va attrs hm
        have hframe : lookupL3 t2 va = lookupL3 t1 va := by
          refine changeAttrLoop_frame attrs n t1 (va + PAGE_SIZE) t2 h va ?_
          intro j hj
          have h1 : pageNum va = va / 4096 := by
            have := pageNum_add va 0 hva (by omega)
            simpa using this
          have h2 : pageNum (va + PAGE_SIZE + PAGE_SIZE * j) = va / 4096 + (j + 1) := by
            have harith : va + PAGE_SIZE + PAGE_SIZE * j = va + 4096 * (j + 1) := by
              unfold PAGE_SIZE
              ring
            rw [harith]
            exact pageNum_add va (j + 1) hva (by omega)
          rw [h1, h2]
          omega
        refine ⟨x, by simpa using hx1, ?_⟩
        simpa using hframe.trans hx2
      | succ k =>
        have harith : va + 4096 * (k + 1) = va + PAGE_SIZE + 4096 * k := by
          unfold PAGE_SIZE
          ring
        rw [harith]
        obtain ⟨x, hx1, hx2⟩ := ih t1 (va + PAGE_SIZE) t2 h
          (by unfold PAGE_SIZE; omega) (by unfold PAGE_SIZE; omega) k (by omega)
        refine ⟨x, ?_, hx2⟩
        have hne : pageNum (va + PAGE_SIZE + 4096 * k) ≠ pageNum va := by
          have h1 : pageNum va = va / 4096 := by
            have := pageNum_add va 0 hva (by omega)
            simpa using this
          have h2 : pageNum (va + PAGE_SIZE + 4096 * k) = va / 4096 + (k + 1) := by
            have harith2 : va + PAGE_SIZE + 4096 * k = va + 4096 * (k + 1) := by
              unfold PAGE_SIZE
              ring
            rw [harith2]
            exact pageNum_add va (k + 1) hva (by omega)
          rw [h1, h2]
          omega
        rw [← changeAttrL3_frame t t1 va (va + PAGE_SIZE + 4096 * k) attrs hm hne]
        exact hx1

theorem changeAttrLoop_succeeds (attrs : PagesAttributes) (n : Nat) :
    ∀ (t : TableL3) (va : Nat),
      (∀ k, k < n → (lookupL3 t (va + 4096 * k)).isSome) →
      ∃ t2, changeAttrLoop attrs n t va = some t2 := by
  induction n with
  | zero => intro t va _; exact ⟨t, rfl⟩
  | succ n ih =>
    intro t va hk
    have h0 : (lookupL3 t va).isSome := by
      have := hk 0 (by omega)
      simpa using this
    obtain ⟨x, hx⟩ := Option.isSome_iff_exists.mp h0
    obtain ⟨t1, ht1⟩ := changeAttrL3_of_lookup t va attrs x hx
    have htail : ∀ k, k < n → (lookupL3 t1 (va + PAGE_SIZE + 4096 * k)).isSome := by
      intro k hkn
      rw [changeAttrL3_isSome t t1 va (va + PAGE_SIZE + 4096 * k) attrs ht1]
      have harith : va + PAGE_SIZE + 4096 * k = va + 4096 * (k + 1) := by
        unfold PAGE_SIZE
        ring
      rw [harith]
      exact hk (k + 1) (by omega)
    obtain ⟨t2, ht2⟩ := ih t1 (va + PAGE_SIZE) htail
    refine ⟨t2, ?_⟩
    unfold changeAttrLoop
    rw [ht1]
    exact ht2

/-- C4 — Attribute change: `change_attr_range` succeeds exactly when every page
in the range is validly mapped (else `NotMapped`); on success it preserves
`translate` for every page in the range while setting the observable attribute
bits to the new attributes, and changes nothing outside the range. -/
theorem claim_C4_change_attr_range (tbl : MMUTable) (va_start va_end : Nat)
    (attrs : PagesAttributes)
    (hvs : va_start % PAGE_SIZE = 0) (hve : va_end % PAGE_SIZE = 0)
    (hle : va_start ≤ va_end) (hvb : va_end + PAGE_SIZE ≤ 2 ^ 48) :
    ((change_attr_range tbl va_start va_end attrs).isSome ↔
      ∀ va, va % PAGE_SIZE = 0 → va_start ≤ va → va ≤ va_end →
        (lookupLeaf tbl va).isSome) ∧
    ∀ tbl2, change_attr_range tbl va_start va_end attrs = some tbl2 →
      (∀ va, va % PAGE_SIZE = 0 → va_start ≤ va → va ≤ va_end →
        tbl2.translate va = tbl.translate va ∧ leafAttrs tbl2 va = some attrs) ∧
      (∀ va, (∀ va', va' % PAGE_SIZE = 0 → va_start ≤ va' → va' ≤ va_end →
          pageNum va ≠ pageNum va') →
        tbl2.translate va = tbl.translate va) := by
  constructor
  · constructor
    · intro hs va hal h1 h2
      unfold change_attr_range at hs
      cases hml : changeAttrLoop attrs ((va_end - va_start) / PAGE_SIZE + 1) tbl.pgd
          va_start with
      | none => rw [hml] at hs; simp at hs
      | some r =>
        have hk : va = va_start + 4096 * ((va - va_start) / 4096) := by
          unfold PAGE_SIZE at hvs hal
          omega
        have := changeAttrLoop_mapped attrs ((va_end - va_start) / PAGE_SIZE + 1) tbl.pgd
          va_start r hml ((va - va_start) / 4096) (by unfold PAGE_SIZE; omega)
        unfold lookupLeaf
        rw [hk]
        exact this
    · intro hall
      unfold change_attr_range
      have hsuc : ∃ r, changeAttrLoop attrs ((va_end - va_start) / PAGE_SIZE + 1) tbl.pgd
          va_start = some r := by
        refine changeAttrLoop_succeeds attrs _ tbl.pgd va_start ?_
        intro k hkn
        refine hall (va_start + 4096 * k) ?_ ?_ ?_
        · unfold PAGE_SIZE at hvs ⊢
          omega
        · omega
        · unfold PAGE_SIZE at hvs hve hkn
          omega
      obtain ⟨r, hr⟩ := hsuc
      rw [hr]
      rfl
  · intro tbl2 h
    unfold change_attr_range at h
    cases hml : changeAttrLoop attrs ((va_end - va_start) / PAGE_SIZE + 1) tbl.pgd
        va_start with
    | none => rw [hml] at h; exact Option.noConfusion h
    | some r =>
      simp only [hml, Option.some.injEq] at h
      subst h
      constructor
      · intro va hal h1 h2
        have hk : va = va_start + 4096 * ((va - va_start) / 4096) := by
          unfold PAGE_SIZE at hvs hal
          omega
        obtain ⟨x, hx1, hx2⟩ := changeAttrLoop_self attrs
          ((va_end - va_start) / PAGE_SIZE + 1) tbl.pgd va_start r hml hvs
          (by unfold PAGE_SIZE at *; omega) ((va - va_start) / 4096)
          (by unfold PAGE_SIZE; omega)
        rw [← hk] at hx1 hx2
        constructor
        · unfold MMUTable.translate lookupLeaf
          simp only [hx1, hx2, Option.map_some']
          rw [decodedPA_make_page_descriptor _ attrs true (decodedPA_mod x) (decodedPA_lt x)]
        · unfold leafAttrs lookupLeaf
          simp only [hx2, Option.map_some']
          rw [decodeAttrs_make_page_descriptor _ attrs true (decodedPA_mod x) (decodedPA_lt x)]
      · intro va hout
        have hframe : lookupL3 r va = lookupL3 tbl.pgd va := by
          refine changeAttrLoop_frame attrs ((va_end - va_start) / PAGE_SIZE + 1) tbl.pgd
            va_start r hml va ?_
          intro j hj
          refine hout (va_start + PAGE_SIZE * j) ?_ ?_ ?_
          · unfold PAGE_SIZE at hvs ⊢
            omega
          · omega
          · unfold PAGE_SIZE at hvs hve hj ⊢
            omega
        unfold MMUTable.translate lookupLeaf
        rw [hframe]

/-- Read-only attribute set used by the C4 witness. -/
def demoAttrs2 : PagesAttributes :=
  ⟨.InnerShareable, .NeverExecute, .ReadOnly, .Privileged, .Normal⟩

/-- Witness for C4: attribute change over the concrete two-page mapped table. -/
theorem claim_C4_change_attr_range_witness :
    ((change_attr_range demoMapT 0x5000 0x6000 demoAttrs2).isSome ↔
      ∀ va, va % PAGE_SIZE = 0 → 0x5000 ≤ va → va ≤ 0x6000 →
        (lookupLeaf demoMapT va).isSome) ∧
    ∀ tbl2, change_attr_range demoMapT 0x5000 0x6000 demoAttrs2 = some tbl2 →
      (∀ va, va % PAGE_SIZE = 0 → 0x5000 ≤ va → va ≤ 0x6000 →
        tbl2.translate va = demoMapT.translate va ∧
          leafAttrs tbl2 va = some demoAttrs2) ∧
      (∀ va, (∀ va', va' % PAGE_SIZE = 0 → 0x5000 ≤ va' → va' ≤ 0x6000 →
          pageNum va ≠ pageNum va') →
        tbl2.translate va = demoMapT.translate va) :=
  claim_C4_change_attr_range demoMapT 0x5000 0x6000 demoAttrs2
    (by decide) (by decide) (by decide) (by decide)

/-- Modelled from the spec: clearing the leaf entry for `va` at the last level
(`unmap_range` does not free the page the leaf pointed to). -/
def unmapL0 (t : TableL0) (va : Nat) : TableL0 :=
  ⟨t.addr, fun j => if j = idx0 va then 0 else t.e j⟩

/-- A last-level table page with zero valid entries. -/
def emptyL0 (t : TableL0) : Bool :=
  (List.range 512).all fun j => t.e j % 2 = 0

/-- A level-1 table page with zero valid entries. -/
def emptyL1 (t : TableL1) : Bool :=
  (List.range 512).all fun j => (t.e j).isNone

/-- A level-2 table page with zero valid entries. -/
def emptyL2 (t : TableL2) : Bool :=
  (List.range 512).all fun j => (t.e j).isNone

/-- Modelled from the spec: unmapping one page from level 1 — clears the leaf,
and frees the last-level table page (returning its address in the freed list)
when it is left with zero valid entries and the `free` callback is present. -/
def unmapL1 (hasFree : Bool) (t : TableL1) (va : Nat) : TableL1 × List Nat :=
  match t.e (idx1 va) with
  | none => (t, [])
  | some s =>
    let s2 := unmapL0 s va
    if hasFree && emptyL0 s2 then
      (⟨t.addr, fun j => if j = idx1 va then none else t.e j⟩, [s2.addr])
    else
      (⟨t.addr, fun j => if j = idx1 va then some s2 else t.e j⟩, [])

/-- Modelled from the spec: unmapping one page from level 2, freeing emptied
intermediate table pages recursively up the tree. -/
def unmapL2 (hasFree : Bool) (t : TableL2) (va : Nat) : TableL2 × List Nat :=
  match t.e (idx2 va) with
  | none => (t, [])
  | some s =>
    let p := unmapL1 hasFree s va
    if hasFree && emptyL1 p.1 then
      (⟨t.addr, fun j => if j = idx2 va then none else t.e j⟩, p.2 ++ [p.1.addr])
    else
      (⟨t.addr, fun j => if j = idx2 va then some p.1 else t.e j⟩, p.2)

/-- Modelled from the spec: unmapping one page from the root (the root page
itself is never freed). -/
def unmapL3 (hasFree : Bool) (t : TableL3) (va : Nat) : TableL3 × List Nat :=
  match t.e (idx3 va) with
  | none => (t, [])
  | some s =>
    let p := unmapL2 hasFree s va
    if hasFree && emptyL2 p.1 then
      (⟨t.addr, fun j => if j = idx3 va then none else t.e j⟩, p.2 ++ [p.1.addr])
    else
      (⟨t.addr, fun j => if j = idx3 va then some p.1 else t.e j⟩, p.2)

/-- Modelled from the spec: the page-by-page loop of `unmap_range`,
accumulating the freed table-page addresses. -/
def unmapLoop (hasFree : Bool) : Nat → TableL3 → Nat → TableL3 × List Nat
  | 0, t, _ => (t, [])
  | n + 1, t, va =>
    let p := unmapL3 hasFree t va
    let q := unmapLoop hasFree n p.1 (va + PAGE_SIZE)
    (q.1, p.2 ++ q.2)

/-- Modelled from the spec: `unmap_range(table, va_start, va_end_inclusive)` of
the missing `mmu_table.cpp` — clears the leaf entries in the inclusive range,
never frees the data pages they pointed to, and frees (via the optional `free`
callback, skipped entirely when absent) any intermediate table page left with
zero valid entries, recursively up the tree.  Returns the updated table and
the list of freed table-page addresses. -/
def unmap_range (tbl : MMUTable) (va_start va_end : Nat) : MMUTable × List Nat :=
  let p := unmapLoop tbl.hasFree ((va_end - va_start) / PAGE_SIZE + 1) tbl.pgd va_start
  ({ tbl with pgd := p.1 }, p.2)

/-- No reachable level-0 table under a level-1 table is empty. -/
def noEmptyL1 (t : TableL1) : Bool :=
  (List.range 512).all fun j =>
    match t.e j with
    | none => true
    | some s => !emptyL0 s

/-- No reachable intermediate table under a level-2 table is empty. -/
def noEmptyL2 (t : TableL2) : Bool :=
  (List.range 512).all fun j =>
    match t.e j with
    | none => true
    | some s => !emptyL1 s && noEmptyL1 s

/-- No reachable intermediate table under the root is empty. -/
def noEmptyL3 (t : TableL3) : Bool :=
  (List.range 512).all fun j =>
    match t.e j with
    | none => true
    | some s => !emptyL2 s && noEmptyL2 s

/-- Addresses of the table pages of a level-1 subtree (itself included). -/
def addrsL1 (t : TableL1) : List Nat :=
  t.addr :: (List.range 512).flatMap fun j =>
    match t.e j with
    | none => []
    | some s => [s.addr]

/-- Addresses of the table pages of a level-2 subtree (itself included). -/
def addrsL2 (t : TableL2) : List Nat :=
  t.addr :: (List.range 512).flatMap fun j =>
    match t.e j with
    | none => []
    | some s => addrsL1 s

/-- Addresses of all table pages of the tree (root included). -/
def addrsL3 (t : TableL3) : List Nat :=
  t.addr :: (List.range 512).flatMap fun j =>
    match t.e j with
    | none => []
    | some s => addrsL2 s

theorem idx0_lt (va : Nat) : idx0 va < 512 := by
  unfold idx0
  omega

theorem idx1_lt (va : Nat) : idx1 va < 512 := by
  unfold idx1
  omega

theorem idx2_lt (va : Nat) : idx2 va < 512 := by
  unfold idx2
  omega

theorem idx3_lt (va : Nat) : idx3 va < 512 := by
  unfold idx3
  omega

theorem emptyL0_lookup (t : TableL0) (va : Nat) (h : emptyL0 t = true) :
    lookupL0 t va = none := by
  unfold emptyL0 at h
  rw [List.all_eq_true] at h
  have h2 : t.e (idx0 va) % 2 = 0 :=
    of_decide_eq_true (h (idx0 va) (List.mem_range.mpr (idx0_lt va)))
  unfold lookupL0
  rw [if_neg (by omega)]

theorem emptyL1_lookup (t : TableL1) (va : Nat) (h : emptyL1 t = true) :
    lookupL1 t va = none := by
  unfold emptyL1 at h
  rw [List.all_eq_true] at h
  have h2 : (t.e (idx1 va)).isNone = true :=
    h (idx1 va) (List.mem_range.mpr (idx1_lt va))
  unfold lookupL1
  rw [Option.isNone_iff_eq_none.mp h2]

theorem emptyL2_lookup (t : TableL2) (va : Nat) (h : emptyL2 t = true) :
    lookupL2 t va = none := by
  unfold emptyL2 at h
  rw [List.all_eq_true] at h
  have h2 : (t.e (idx2 va)).isNone = true :=
    h (idx2 va) (List.mem_range.mpr (idx2_lt va))
  unfold lookupL2
  rw [Option.isNone_iff_eq_none.mp h2]

theorem unmapL0_lookup (t : TableL0) (va va0 : Nat) :
    lookupL0 (unmapL0 t va) va0 =
      if idx0 va0 = idx0 va then none else lookupL0 t va0 := by
  unfold unmapL0 lookupL0
  by_cases hid : idx0 va0 = idx0 va
  · simp [hid]
  · simp [hid]

theorem unmapL1_lookup (f : Bool) (t : TableL1) (va va0 : Nat) :
    lookupL1 (unmapL1 f t va).1 va0 =
      if idx1 va0 = idx1 va ∧ idx0 va0 = idx0 va then none else lookupL1 t va0 := by
  cases he : t.e (idx1 va) with
  | none =>
    simp only [unmapL1, he]
    by_cases hc : idx1 va0 = idx1 va ∧ idx0 va0 = idx0 va
    · rw [if_pos hc]
      unfold lookupL1
      rw [hc.1, he]
    · rw [if_neg hc]
  | some s =>
    simp only [unmapL1, he]
    split
    next hfe =>
      have hemp : emptyL0 (unmapL0 s va) = true := (Bool.and_eq_true _ _).mp hfe |>.2
      by_cases hc : idx1 va0 = idx1 va ∧ idx0 va0 = idx0 va
      · rw [if_pos hc]
        unfold lookupL1
        simp [hc.1]
      · rw [if_neg hc]
        unfold lookupL1
        by_cases hid : idx1 va0 = idx1 va
        · have hid0 : idx0 va0 ≠ idx0 va := fun h0 => hc ⟨hid, h0⟩
          simp only [hid, he]
          have hkeep : lookupL0 (unmapL0 s va) va0 = lookupL0 s va0 := by
            rw [unmapL0_lookup, if_neg hid0]
          rw [← hkeep, emptyL0_lookup _ va0 hemp]
          rfl
        · simp [hid]
    next hfe =>
      by_cases hc : idx1 va0 = idx1 va ∧ idx0 va0 = idx0 va
      · rw [if_pos hc]
        unfold lookupL1
        simp only [hc.1]
        show lookupL0 (unmapL0 s va) va0 = none
        rw [unmapL0_lookup, if_pos hc.2]
      · rw [if_neg hc]
        unfold lookupL1
        by_cases hid : idx1 va0 = idx1 va
        · have hid0 : idx0 va0 ≠ idx0 va := fun h0 => hc ⟨hid, h0⟩
          simp only [hid, he]
          show lookupL0 (unmapL0 s va) va0 = lookupL0 s va0
          rw [unmapL0_lookup, if_neg hid0]
        · simp [hid]

theorem unmapL2_lookup (f : Bool) (t : TableL2) (va va0 : Nat) :
    lookupL2 (unmapL2 f t va).1 va0 =
      if idx2 va0 = idx2 va ∧ idx1 va0 = idx1 va ∧ idx0 va0 = idx0 va then none
      else lookupL2 t va0 := by
  cases he : t.e (idx2 va) with
  | none =>
    simp only [unmapL2, he]
    by_cases hc : idx2 va0 = idx2 va ∧ idx1 va0 = idx1 va ∧ idx0 va0 = idx0 va
    · rw [if_pos hc]
      unfold lookupL2
      rw [hc.1, he]
    · rw [if_neg hc]
  | some s =>
    simp only [unmapL2, he]
    split
    next hfe =>
      have hemp : emptyL1 (unmapL1 f s va).1 = true := (Bool.and_eq_true _ _).mp hfe |>.2
      by_cases hc : idx2 va0 = idx2 va ∧ idx1 va0 = idx1 va ∧ idx0 va0 = idx0 va
      · rw [if_pos hc]
        unfold lookupL2
        simp [hc.1]
      · rw [if_neg hc]
        unfold lookupL2
        by_cases hid : idx2 va0 = idx2 va
        · have hin : ¬(idx1 va0 = idx1 va ∧ idx0 va0 = idx0 va) :=
            fun h0 => hc ⟨hid, h0⟩
          simp only [hid, he]
          have hkeep : lookupL1 (unmapL1 f s va).1 va0 = lookupL1 s va0 := by
            rw [unmapL1_lookup, if_neg hin]
          rw [← hkeep, emptyL1_lookup _ va0 hemp]
          rfl
        · simp [hid]
    next hfe =>
      by_cases hc : idx2 va0 = idx2 va ∧ idx1 va0 = idx1 va ∧ idx0 va0 = idx0 va
      · rw [if_pos hc]
        unfold lookupL2
        simp only [hc.1]
        show lookupL1 (unmapL1 f s va).1 va0 = none
        rw [unmapL1_lookup, if_pos hc.2]
      · rw [if_neg hc]
        unfold lookupL2
        by_cases hid : idx2 va0 = idx2 va
        · have hin : ¬(idx1 va0 = idx1 va ∧ idx0 va0 = idx0 va) :=
            fun h0 => hc ⟨hid, h0⟩
          simp only [hid, he]
          show lookupL1 (unmapL1 f s va).1 va0 = lookupL1 s va0
          rw [unmapL1_lookup, if_neg hin]
        · simp [hid]

theorem unmapL3_lookup (f : Bool) (t : TableL3) (va va0 : Nat) :
    lookupL3 (unmapL3 f t va).1 va0 =
      if idx3 va0 = idx3 va ∧ idx2 va0 = idx2 va ∧ idx1 va0 = idx1 va ∧
          idx0 va0 = idx0 va then none
      else lookupL3 t va0 := by
  cases he : t.e (idx3 va) with
  | none =>
    simp only [unmapL3, he]
    by_cases hc : idx3 va0 = idx3 va ∧ idx2 va0 = idx2 va ∧ idx1 va0 = idx1 va ∧
        idx0 va0 = idx0 va
    · rw [if_pos hc]
      unfold lookupL3
      rw [hc.1, he]
    · rw [if_neg hc]
  | some s =>
    simp only [unmapL3, he]
    split
    next hfe =>
      have hemp : emptyL2 (unmapL2 f s va).1 = true := (Bool.and_eq_true _ _).mp hfe |>.2
      by_cases hc : idx3 va0 = idx3 va ∧ idx2 va0 = idx2 va ∧ idx1 va0 = idx1 va ∧
          idx0 va0 = idx0 va
      · rw [if_pos hc]
        unfold lookupL3
        simp [hc.1]
      · rw [if_neg hc]
        unfold lookupL3
        by_cases hid : idx3 va0 = idx3 va
        · have hin : ¬(idx2 va0 = idx2 va ∧ idx1 va0 = idx1 va ∧ idx0 va0 = idx0 va) :=
            fun h0 => hc ⟨hid, h0⟩
          simp only [hid, he]
          have hkeep : lookupL2 (unmapL2 f s va).1 va0 = lookupL2 s va0 := by
            rw [unmapL2_lookup, if_neg hin]
          rw [← hkeep, emptyL2_lookup _ va0 hemp]
          rfl
        · simp [hid]
    next hfe =>
      by_cases hc : idx3 va0 = idx3 va ∧ idx2 va0 = idx2 va ∧ idx1 va0 = idx1 va ∧
          idx0 va0 = idx0 va
      · rw [if_pos hc]
        unfold lookupL3
        simp only [hc.1]
        show lookupL2 (unmapL2 f s va).1 va0 = none
        rw [unmapL2_lookup, if_pos hc.2]
      · rw [if_neg hc]
        unfold lookupL3
        by_cases hid : idx3 va0 = idx3 va
        · have hin : ¬(idx2 va0 = idx2 va ∧ idx1 va0 = idx1 va ∧ idx0 va0 = idx0 va) :=
            fun h0 => hc ⟨hid, h0⟩
          simp only [hid, he]
          show lookupL2 (unmapL2 f s va).1 va0 = lookupL2 s va0
          rw [unmapL2_lookup, if_neg hin]
        · simp [hid]

theorem unmapL3_lookup_page (f : Bool) (t : TableL3) (va va0 : Nat) :
    lookupL3 (unmapL3 f t va).1 va0 =
      if pageNum va0 = pageNum va then none else lookupL3 t va0 := by
  rw [unmapL3_lookup]
  by_cases hp : pageNum va0 = pageNum va
  · obtain ⟨h0, h1, h2, h3⟩ := (pageNum_eq_iff va0 va).mp hp
    rw [if_pos ⟨h3, h2, h1, h0⟩, if_pos hp]
  · rw [if_neg ?_, if_neg hp]
    intro hc
    exact hp ((pageNum_eq_iff va0 va).mpr ⟨hc.2.2.2, hc.2.2.1, hc.2.1, hc.1⟩)

theorem unmapL1_noFree (t : TableL1) (va : Nat) : (unmapL1 false t va).2 = [] := by
  unfold unmapL1
  cases he : t.e (idx1 va) <;> simp [he]

theorem unmapL2_noFree (t : TableL2) (va : Nat) : (unmapL2 false t va).2 = [] := by
  unfold unmapL2
  cases he : t.e (idx2 va) <;> simp [he, unmapL1_noFree]

theorem unmapL3_noFree (t : TableL3) (va : Nat) : (unmapL3 false t va).2 = [] := by
  unfold unmapL3
  cases he : t.e (idx3 va) <;> simp [he, unmapL2_noFree]

theorem unmapLoop_noFree (n : Nat) :
    ∀ (t : TableL3) (va : Nat), (unmapLoop false n t va).2 = [] := by
  induction n with
  | zero => intro t va; rfl
  | succ n ih =>
    intro t va
    simp [unmapLoop, unmapL3_noFree, ih]

theorem unmapL0_addr (t : TableL0) (va : Nat) : (unmapL0 t va).addr = t.addr := rfl

theorem unmapL1_addr (f : Bool) (t : TableL1) (va : Nat) :
    (unmapL1 f t va).1.addr = t.addr := by
  unfold unmapL1
  cases he : t.e (idx1 va) with
  | none => rfl
  | some s =>
    simp only
    split <;> rfl

theorem unmapL2_addr (f : Bool) (t : TableL2) (va : Nat) :
    (unmapL2 f t va).1.addr = t.addr := by
  unfold unmapL2
  cases he : t.e (idx2 va) with
  | none => rfl
  | some s =>
    simp only
    split <;> rfl

theorem unmapL3_addr (f : Bool) (t : TableL3) (va : Nat) :
    (unmapL3 f t va).1.addr = t.addr := by
  unfold unmapL3
  cases he : t.e (idx3 va) with
  | none => rfl
  | some s =>
    simp only
    split <;> rfl

theorem unmapL1_entry (f : Bool) (t : TableL1) (va j : Nat) :
    (unmapL1 f t va).1.e j = t.e j ∨ (unmapL1 f t va).1.e j = none ∨
      ∃ s, t.e j = some s ∧ (unmapL1 f t va).1.e j = some (unmapL0 s va) := by
  unfold unmapL1
  cases he : t.e (idx1 va) with
  | none => left; rfl
  | some s =>
    simp only
    split
    · by_cases hj : j = idx1 va
      · right; left; simp [hj]
      · left; simp [hj]
    · by_cases hj : j = idx1 va
      · right; right
        exact ⟨s, by rw [hj, he], by simp [hj]⟩
      · left; simp [hj]

theorem unmapL2_entry (f : Bool) (t : TableL2) (va j : Nat) :
    (unmapL2 f t va).1.e j = t.e j ∨ (unmapL2 f t va).1.e j = none ∨
      ∃ s, t.e j = some s ∧ (unmapL2 f t va).1.e j = some ((unmapL1 f s va).1) := by
  unfold unmapL2
  cases he : t.e (idx2 va) with
  | none => left; rfl
  | some s =>
    simp only
    split
    · by_cases hj : j = idx2 va
      · right; left; simp [hj]
      · left; simp [hj]
    · by_cases hj : j = idx2 va
      · right; right
        exact ⟨s, by rw [hj, he], by simp [hj]⟩
      · left; simp [hj]

theorem unmapL3_entry (f : Bool) (t : TableL3) (va j : Nat) :
    (unmapL3 f t va).1.e j = t.e j ∨ (unmapL3 f t va).1.e j = none ∨
      ∃ s, t.e j = some s ∧ (unmapL3 f t va).1.e j = some ((unmapL2 f s va).1) := by
  unfold unmapL3
  cases he : t.e (idx3 va) with
  | none => left; rfl
  | some s =>
    simp only
    split
    · by_cases hj : j = idx3 va
      · right; left; simp [hj]
      · left; simp [hj]
    · by_cases hj : j = idx3 va
      · right; right
        exact ⟨s, by rw [hj, he], by simp [hj]⟩
      · left; simp [hj]

theorem noEmptyL1_spec (t : TableL1) :
    noEmptyL1 t = true ↔
      ∀ j, j < 512 → ∀ s, t.e j = some s → emptyL0 s = false := by
  unfold noEmptyL1
  rw [List.all_eq_true]
  constructor
  · intro h j hj s hs
    have h2 := h j (List.mem_range.mpr hj)
    rw [hs] at h2
    simpa using h2
  · intro h j hj
    cases hs : t.e j with
    | none => simp [hs]
    | some s => simp [hs, h j (List.mem_range.mp hj) s hs]

theorem noEmptyL2_spec (t : TableL2) :
    noEmptyL2 t = true ↔
      ∀ j, j < 512 → ∀ s, t.e j = some s →
        emptyL1 s = false ∧ noEmptyL1 s = true := by
  unfold noEmptyL2
  rw [List.all_eq_true]
  constructor
  · intro h j hj s hs
    have h2 := h j (List.mem_range.mpr hj)
    rw [hs] at h2
    simpa using h2
  · intro h j hj
    cases hs : t.e j with
    | none => simp [hs]
    | some s => simp [hs, (h j (List.mem_range.mp hj) s hs).1,
        (h j (List.mem_range.mp hj) s hs).2]

theorem noEmptyL3_spec (t : TableL3) :
    noEmptyL3 t = true ↔
      ∀ j, j < 512 → ∀ s, t.e j = some s →
        emptyL2 s = false ∧ noEmptyL2 s = true := by
  unfold noEmptyL3
  rw [List.all_eq_true]
  constructor
  · intro h j hj s hs
    have h2 := h j (List.mem_range.mpr hj)
    rw [hs] at h2
    simpa using h2
  · intro h j hj
    cases hs : t.e j with
    | none => simp [hs]
    | some s => simp [hs, (h j (List.mem_range.mp hj) s hs).1,
        (h j (List.mem_range.mp hj) s hs).2]

theorem unmapL1_noEmpty (t : TableL1) (va : Nat) (h : noEmptyL1 t = true) :
    noEmptyL1 (unmapL1 true t va).1 = true := by
  rw [noEmptyL1_spec] at h ⊢
  intro j hj s hs
  unfold unmapL1 at hs
  cases he : t.e (idx1 va) with
  | none =>
    rw [he] at hs
    exact h j hj s hs
  | some s1 =>
    simp only [he] at hs
    by_cases hfe : (true && emptyL0 (unmapL0 s1 va)) = true
    · rw [if_pos hfe] at hs
      simp only at hs
      by_cases hj1 : j = idx1 va
      · rw [if_pos hj1] at hs
        exact Option.noConfusion hs
      · rw [if_neg hj1] at hs
        exact h j hj s hs
    · rw [if_neg hfe] at hs
      simp only at hs
      by_cases hj1 : j = idx1 va
      · rw [if_pos hj1] at hs
        injection hs with h2
        subst h2
        revert hfe
        cases emptyL0 (unmapL0 s1 va) <;> simp
      · rw [if_neg hj1] at hs
        exact h j hj s hs

theorem unmapL2_noEmpty (t : TableL2) (va : Nat) (h : noEmptyL2 t = true) :
    noEmptyL2 (unmapL2 true t va).1 = true := by
  rw [noEmptyL2_spec] at h ⊢
  intro j hj s hs
  unfold unmapL2 at hs
  cases he : t.e (idx2 va) with
  | none =>
    rw [he] at hs
    exact h j hj s hs
  | some s1 =>
    simp only [he] at hs
    by_cases hfe : (true && emptyL1 (unmapL1 true s1 va).1) = true
    · rw [if_pos hfe] at hs
      simp only at hs
      by_cases hj1 : j = idx2 va
      · rw [if_pos hj1] at hs
        exact Option.noConfusion hs
      · rw [if_neg hj1] at hs
        exact h j hj s hs
    · rw [if_neg hfe] at hs
      simp only at hs
      by_cases hj1 : j = idx2 va
      · rw [if_pos hj1] at hs
        injection hs with h2
        subst h2
        constructor
        · revert hfe
          cases emptyL1 (unmapL1 true s1 va).1 <;> simp
        · have hrec := h (idx2 va) (idx2_lt va) s1 he
          exact unmapL1_noEmpty s1 va hrec.2
      · rw [if_neg hj1] at hs
        exact h j hj s hs

theorem unmapL3_noEmpty (t : TableL3) (va : Nat) (h : noEmptyL3 t = true) :
    noEmptyL3 (unmapL3 true t va).1 = true := by
  rw [noEmptyL3_spec] at h ⊢
  intro j hj s hs
  unfold unmapL3 at hs
  cases he : t.e (idx3 va) with
  | none =>
    rw [he] at hs
    exact h j hj s hs
  | some s1 =>
    simp only [he] at hs
    by_cases hfe : (true && emptyL2 (unmapL2 true s1 va).1) = true
    · rw [if_pos hfe] at hs
      simp only at hs
      by_cases hj1 : j = idx3 va
      · rw [if_pos hj1] at hs
        exact Option.noConfusion hs
      · rw [if_neg hj1] at hs
        exact h j hj s hs
    · rw [if_neg hfe] at hs
      simp only at hs
      by_cases hj1 : j = idx3 va
      · rw [if_pos hj1] at hs
        injection hs with h2
        subst h2
        constructor
        · revert hfe
          cases emptyL2 (unmapL2 true s1 va).1 <;> simp
        · have hrec := h (idx3 va) (idx3_lt va) s1 he
          exact unmapL2_noEmpty s1 va hrec.2
      · rw [if_neg hj1] at hs
        exact h j hj s hs

theorem unmapLoop_noEmpty (n : Nat) :
    ∀ (t : TableL3) (va : Nat), noEmptyL3 t = true →
      noEmptyL3 (unmapLoop true n t va).1 = true := by
  induction n with
  | zero => intro t va h; exact h
  | succ n ih =>
    intro t va h
    exact ih (unmapL3 true t va).1 (va + PAGE_SIZE) (unmapL3_noEmpty t va h)

theorem mem_addrsL1_head (t : TableL1) : t.addr ∈ addrsL1 t := by
  unfold addrsL1
  exact List.mem_cons_self _ _

theorem mem_addrsL2_head (t : TableL2) : t.addr ∈ addrsL2 t := by
  unfold addrsL2
  exact List.mem_cons_self _ _

theorem mem_addrsL1_child (t : TableL1) (j : Nat) (hj : j < 512) (s : TableL0)
    (hs : t.e j = some s) : s.addr ∈ addrsL1 t := by
  unfold addrsL1
  refine List.mem_cons.mpr (Or.inr ?_)
  refine List.mem_flatMap.mpr ⟨j, List.mem_range.mpr hj, ?_⟩
  simp [hs]

theorem mem_addrsL2_child (t : TableL2) (j : Nat) (hj : j < 512) (s : TableL1)
    (hs : t.e j = some s) (a : Nat) (ha : a ∈ addrsL1 s) : a ∈ addrsL2 t := by
  unfold addrsL2
  refine List.mem_cons.mpr (Or.inr ?_)
  refine List.mem_flatMap.mpr ⟨j, List.mem_range.mpr hj, ?_⟩
  simp [hs, ha]

theorem mem_addrsL3_child (t : TableL3) (j : Nat) (hj : j < 512) (s : TableL2)
    (hs : t.e j = some s) (a : Nat) (ha : a ∈ addrsL2 s) : a ∈ addrsL3 t := by
  unfold addrsL3
  refine List.mem_cons.mpr (Or.inr ?_)
  refine List.mem_flatMap.mpr ⟨j, List.mem_range.mpr hj, ?_⟩
  simp [hs, ha]

theorem unmapL1_addrs_subset (f : Bool) (t : TableL1) (va : Nat) :
    ∀ a, a ∈ addrsL1 (unmapL1 f t va).1 → a ∈ addrsL1 t := by
  intro a ha
  unfold addrsL1 at ha
  rcases List.mem_cons.mp ha with h | h
  · rw [h, unmapL1_addr]
    exact mem_addrsL1_head t
  · obtain ⟨j, hj, hja⟩ := List.mem_flatMap.mp h
    rcases hent : (unmapL1 f t va).1.e j with _ | s
    · rw [hent] at hja
      simp at hja
    · rw [hent] at hja
      simp at hja
      rcases unmapL1_entry f t va j with hc | hc | ⟨s1, hs1, hc⟩
      · rw [hc] at hent
        rw [hja]
        exact mem_addrsL1_child t j (List.mem_range.mp hj) s hent
      · rw [hc] at hent
        exact Option.noConfusion hent
      · rw [hc] at hent
        injection hent with h2
        rw [hja, ← h2, unmapL0_addr]
        exact mem_addrsL1_child t j (List.mem_range.mp hj) s1 hs1

theorem unmapL2_addrs_subset (f : Bool) (t : TableL2) (va : Nat) :
    ∀ a, a ∈ addrsL2 (unmapL2 f t va).1 → a ∈ addrsL2 t := by
  intro a ha
  unfold addrsL2 at ha
  rcases List.mem_cons.mp ha with h | h
  · rw [h, unmapL2_addr]
    exact mem_addrsL2_head t
  · obtain ⟨j, hj, hja⟩ := List.mem_flatMap.mp h
    rcases hent : (unmapL2 f t va).1.e j with _ | s
    · rw [hent] at hja
      simp at hja
    · rw [hent] at hja
      simp at hja
      rcases unmapL2_entry f t va j with hc | hc | ⟨s1, hs1, hc⟩
      · rw [hc] at hent
        exact mem_addrsL2_child t j (List.mem_range.mp hj) s hent a hja
      · rw [hc] at hent
        exact Option.noConfusion hent
      · rw [hc] at hent
        injection hent with h2
        subst h2
        exact mem_addrsL2_child t j (List.mem_range.mp hj) s1 hs1 a
          (unmapL1_addrs_subset f s1 va a hja)

theorem unmapL3_addrs_subset (f : Bool) (t : TableL3) (va : Nat) :
    ∀ a, a ∈ addrsL3 (unmapL3 f t va).1 → a ∈ addrsL3 t := by
  intro a ha
  unfold addrsL3 at ha
  rcases List.mem_cons.mp ha with h | h
  · rw [h, unmapL3_addr]
    unfold addrsL3
    exact List.mem_cons_self _ _
  · obtain ⟨j, hj, hja⟩ := List.mem_flatMap.mp h
    rcases hent : (unmapL3 f t va).1.e j with _ | s
    · rw [hent] at hja
      simp at hja
    · rw [hent] at hja
      simp at hja
      rcases unmapL3_entry f t va j with hc | hc | ⟨s1, hs1, hc⟩
      · rw [hc] at hent
        exact mem_addrsL3_child t j (List.mem_range.mp hj) s hent a hja
      · rw [hc] at hent
        exact Option.noConfusion hent
      · rw [hc] at hent
        injection hent with h2
        subst h2
        exact mem_addrsL3_child t j (List.mem_range.mp hj) s1 hs1 a
          (unmapL2_addrs_subset f s1 va a hja)

theorem unmapL1_freed (f : Bool) (t : TableL1) (va : Nat) :
    ∀ a, a ∈ (unmapL1 f t va).2 → a ∈ addrsL1 t := by
  intro a ha
  unfold unmapL1 at ha
  cases he : t.e (idx1 va) with
  | none =>
    rw [he] at ha
    simp at ha
  | some s =>
    simp only [he] at ha
    by_cases hfe : (f && emptyL0 (unmapL0 s va)) = true
    · rw [if_pos hfe] at ha
      simp at ha
      rw [ha, unmapL0_addr]
      exact mem_addrsL1_child t (idx1 va) (idx1_lt va) s he
    · rw [if_neg hfe] at ha
      simp at ha

theorem unmapL2_freed (f : Bool) (t : TableL2) (va : Nat) :
    ∀ a, a ∈ (unmapL2 f t va).2 → a ∈ addrsL2 t := by
  intro a ha
  unfold unmapL2 at ha
  cases he : t.e (idx2 va) with
  | none =>
    rw [he] at ha
    simp at ha
  | some s =>
    simp only [he] at ha
    by_cases hfe : (f && emptyL1 (unmapL1 f s va).1) = true
    · rw [if_pos hfe] at ha
      simp only at ha
      rcases List.mem_append.mp ha with h | h
      · exact mem_addrsL2_child t (idx2 va) (idx2_lt va) s he a (unmapL1_freed f s va a h)
      · simp at h
        rw [h, unmapL1_addr]
        exact mem_addrsL2_child t (idx2 va) (idx2_lt va) s he s.addr (mem_addrsL1_head s)
    · rw [if_neg hfe] at ha
      simp only at ha
      exact mem_addrsL2_child t (idx2 va) (idx2_lt va) s he a (unmapL1_freed f s va a ha)

theorem unmapL3_freed (f : Bool) (t : TableL3) (va : Nat) :
    ∀ a, a ∈ (unmapL3 f t va).2 → a ∈ addrsL3 t := by
  intro a ha
  unfold unmapL3 at ha
  cases he : t.e (idx3 va) with
  | none =>
    rw [he] at ha
    simp at ha
  | some s =>
    simp only [he] at ha
    by_cases hfe : (f && emptyL2 (unmapL2 f s va).1) = true
    · rw [if_pos hfe] at ha
      simp only at ha
      rcases List.mem_append.mp ha with h | h
      · exact mem_addrsL3_child t (idx3 va) (idx3_lt va) s he a (unmapL2_freed f s va a h)
      · simp at h
        rw [h, unmapL2_addr]
        exact mem_addrsL3_child t (idx3 va) (idx3_lt va) s he s.addr (mem_addrsL2_head s)
    · rw [if_neg hfe] at ha
      simp only at ha
      exact mem_addrsL3_child t (idx3 va) (idx3_lt va) s he a (unmapL2_freed f s va a ha)

theorem unmapLoop_freed (f : Bool) (n : Nat) :
    ∀ (t : TableL3) (va : Nat) (a : Nat),
      a ∈ (unmapLoop f n t va).2 → a ∈ addrsL3 t := by
  induction n with
  | zero =>
    intro t va a ha
    simp [unmapLoop] at ha
  | succ n ih =>
    intro t va a ha
    simp only [unmapLoop] at ha
    rcases List.mem_append.mp ha with h | h
    · exact unmapL3_freed f t va a h
    · have := ih (unmapL3 f t va).1 (va + PAGE_SIZE) a h
      exact unmapL3_addrs_subset f t va a this

theorem unmapLoop_lookup_none (f : Bool) (n : Nat) :
    ∀ (t : TableL3) (va va0 : Nat), lookupL3 t va0 = none →
      lookupL3 (unmapLoop f n t va).1 va0 = none := by
  induction n with
  | zero => intro t va va0 h; exact h
  | succ n ih =>
    intro t va va0 h
    simp only [unmapLoop]
    refine ih (unmapL3 f t va).1 (va + PAGE_SIZE) va0 ?_
    rw [unmapL3_lookup_page]
    by_cases hp : pageNum va0 = pageNum va
    · rw [if_pos hp]
    · rw [if_neg hp]
      exact h

theorem unmapLoop_clears (f : Bool) (n : Nat) :
    ∀ (t : TableL3) (va m : Nat), m < n →
      lookupL3 (unmapLoop f n t va).1 (va + 4096 * m) = none := by
  induction n with
  | zero => intro t va m hm; omega
  | succ n ih =>
    intro t va m hm
    simp only [unmapLoop]
    cases m with
    | zero =>
      refine unmapLoop_lookup_none f n (unmapL3 f t va).1 (va + PAGE_SIZE) (va + 4096 * 0) ?_
      rw [unmapL3_lookup_page]
      rw [if_pos (by norm_num)]
    | succ m =>
      have harith : va + 4096 * (m + 1) = va + PAGE_SIZE + 4096 * m := by
        unfold PAGE_SIZE
        ring
      rw [harith]
      exact ih (unmapL3 f t va).1 (va + PAGE_SIZE) m (by omega)

/-- C3 — Unmap clears: after `unmap_range(table, va_start, va_end)`,
`translate` fails for every page of the inclusive range; nothing at all is
freed when the `free` callback is absent; when it is present, no intermediate
table page with zero valid entries remains in the tree (each one was freed,
recursively up the tree); and every freed address is a table page of the old
tree — in particular a data page a cleared leaf pointed to, being outside the
table pages, is never freed. -/
theorem claim_C3_unmap_range (tbl : MMUTable) (va_start va_end : Nat)
    (hvs : va_start % PAGE_SIZE = 0) (hle : va_start ≤ va_end) :
    (∀ va, va % PAGE_SIZE = 0 → va_start ≤ va → va ≤ va_end →
      (unmap_range tbl va_start va_end).1.translate va = none) ∧
    (tbl.hasFree = false → (unmap_range tbl va_start va_end).2 = []) ∧
    (tbl.hasFree = true → noEmptyL3 tbl.pgd = true →
      noEmptyL3 (unmap_range tbl va_start va_end).1.pgd = true) ∧
    (∀ a, a ∈ (unmap_range tbl va_start va_end).2 → a ∈ addrsL3 tbl.pgd) ∧
    (∀ va x, lookupLeaf tbl va = some x → decodedPA x ∉ addrsL3 tbl.pgd →
      decodedPA x ∉ (unmap_range tbl va_start va_end).2) := by
  refine ⟨?_, ?_, ?_, ?_, ?_⟩
  · intro va hal h1 h2
    have hk : va = va_start + 4096 * ((va - va_start) / 4096) := by
      unfold PAGE_SIZE at hvs hal
      omega
    have hm : (va - va_start) / 4096 < (va_end - va_start) / PAGE_SIZE + 1 := by
      unfold PAGE_SIZE
      omega
    unfold MMUTable.translate lookupLeaf unmap_range
    simp only
    rw [hk]
    rw [unmapLoop_clears tbl.hasFree ((va_end - va_start) / PAGE_SIZE + 1) tbl.pgd
      va_start ((va - va_start) / 4096) hm]
    rfl
  · intro h
    unfold unmap_range
    simp only [h]
    exact unmapLoop_noFree _ tbl.pgd va_start
  · intro h hne
    unfold unmap_range
    simp only [h]
    exact unmapLoop_noEmpty _ tbl.pgd va_start hne
  · intro a ha
    unfold unmap_range at ha
    simp only at ha
    exact unmapLoop_freed tbl.hasFree _ tbl.pgd va_start a ha
  · intro va x hx hnot hin
    refine hnot ?_
    unfold unmap_range at hin
    simp only at hin
    exact unmapLoop_freed tbl.hasFree _ tbl.pgd va_start _ hin

/-- Mapped two-page table whose `free` callback is present, for the C3 witness. -/
def demoTblF : MMUTable :=
  (map_range ⟨⟨0, fun _ => none⟩, 1, true⟩ 0x5000 0x6000 0x8000 demoAttrs).getD
    ⟨⟨0, fun _ => none⟩, 1, true⟩

/-- Witness for C3: unmapping the mapped two-page range of the concrete table. -/
theorem claim_C3_unmap_range_witness :
    (∀ va, va % PAGE_SIZE = 0 → 0x5000 ≤ va → va ≤ 0x6000 →
      (unmap_range demoTblF 0x5000 0x6000).1.translate va = none) ∧
    (demoTblF.hasFree = false → (unmap_range demoTblF 0x5000 0x6000).2 = []) ∧
    (demoTblF.hasFree = true → noEmptyL3 demoTblF.pgd = true →
      noEmptyL3 (unmap_range demoTblF 0x5000 0x6000).1.pgd = true) ∧
    (∀ a, a ∈ (unmap_range demoTblF 0x5000 0x6000).2 → a ∈ addrsL3 demoTblF.pgd) ∧
    (∀ va x, lookupLeaf demoTblF va = some x → decodedPA x ∉ addrsL3 demoTblF.pgd →
      decodedPA x ∉ (unmap_range demoTblF 0x5000 0x6000).2) :=
  claim_C3_unmap_range demoTblF 0x5000 0x6000 (by decide) (by decide)

/-- Modelled from the spec: a `MemoryChunk` of `nb_pages` pages — the list of
backing physical page addresses (`pas`), the byte contents of the backing
pages indexed by chunk offset (`data`, via the kernel-virtual window), and the
registered (address-space, start virtual address) mappings (`proc`).
The implementation `memory_chunk.cpp` is missing from the sources; only the
class declaration `memory_chunk.hpp` is available. -/
structure MemoryChunk where
  nb_pages : Nat
  pas : List Nat
  data : Nat → Nat
  proc : List (MMUTable × Nat)

/-- Number of bytes of the chunk. -/
def MemoryChunk.byte_size (c : MemoryChunk) : Nat := c.nb_pages * PAGE_SIZE

/-- Modelled from the spec: `MemoryChunk::write(byte_offset, data, length)` —
copies into the backing pages starting at `byte_offset`, clamps the count to
`byte_size() - byte_offset` (zero when the offset is at or past the end),
returns the actually-written count and never writes out of bounds. -/
def MemoryChunk.write (c : MemoryChunk) (byte_offset : Nat) (src : Nat → Nat)
    (data_byte_length : Nat) : MemoryChunk × Nat :=
  let n := if c.byte_size ≤ byte_offset then 0
    else min data_byte_length (c.byte_size - byte_offset)
  ({ c with data := fun i =>
      if byte_offset ≤ i ∧ i < byte_offset + n then src (i - byte_offset) else c.data i },
   n)

/-- Modelled from the spec: `MemoryChunk::read(byte_offset, data, length)` —
clamped symmetrically to `write`; returns the destination buffer contents and
the actually-read count. -/
def MemoryChunk.read (c : MemoryChunk) (byte_offset : Nat)
    (data_byte_length : Nat) : (Nat → Nat) × Nat :=
  let n := if c.byte_size ≤ byte_offset then 0
    else min data_byte_length (c.byte_size - byte_offset)
  (fun i => c.data (byte_offset + i), n)

/-- C8 — Clamped chunk I/O: `write` returns `min(L, byte_size - byte_offset)`
(zero when the offset is at or past the end), modifies no byte outside the
written window nor outside the chunk, and never errors; `read` is clamped
symmetrically; in particular writing `L = 100` at `byte_offset = byte_size - 10`
writes exactly 10 bytes. -/
theorem claim_C8_chunk_clamped_io (c : MemoryChunk) (src : Nat → Nat)
    (byte_offset L : Nat) (h10 : 10 ≤ c.byte_size) :
    ((c.write byte_offset src L).2 =
      if c.byte_size ≤ byte_offset then 0 else min L (c.byte_size - byte_offset)) ∧
    (∀ i, i < byte_offset ∨ byte_offset + (c.write byte_offset src L).2 ≤ i →
      (c.write byte_offset src L).1.data i = c.data i) ∧
    (∀ i, c.byte_size ≤ i → (c.write byte_offset src L).1.data i = c.data i) ∧
    ((c.read byte_offset L).2 =
      if c.byte_size ≤ byte_offset then 0 else min L (c.byte_size - byte_offset)) ∧
    (c.write (c.byte_size - 10) src 100).2 = 10 := by
  refine ⟨rfl, ?_, ?_, rfl, ?_⟩
  · intro i hi
    have hn : (c.write byte_offset src L).2 =
        if c.byte_size ≤ byte_offset then 0 else min L (c.byte_size - byte_offset) := rfl
    rw [hn] at hi
    unfold MemoryChunk.write
    simp only
    rw [if_neg ?_]
    intro hc
    by_cases hoff : c.byte_size ≤ byte_offset
    · rw [if_pos hoff] at hi hc
      rcases hi with hi | hi <;> omega
    · rw [if_neg hoff] at hi hc
      rcases hi with hi | hi <;> omega
  · intro i hi
    unfold MemoryChunk.write
    simp only
    rw [if_neg ?_]
    intro hc
    by_cases hoff : c.byte_size ≤ byte_offset
    · rw [if_pos hoff] at hc
      omega
    · rw [if_neg hoff] at hc
      omega
  · unfold MemoryChunk.write
    simp only
    rw [if_neg (by omega)]
    omega

/-- Witness for C8: a one-page chunk. -/
theorem claim_C8_chunk_clamped_io_witness :
    (((⟨1, [0], fun _ => 0, []⟩ : MemoryChunk).write 16 (fun _ => 0xAB) 8).2 =
      if (⟨1, [0], fun _ => 0, []⟩ : MemoryChunk).byte_size ≤ 16 then 0
      else min 8 ((⟨1, [0], fun _ => 0, []⟩ : MemoryChunk).byte_size - 16)) ∧
    (∀ i, i < 16 ∨ 16 + (((⟨1, [0], fun _ => 0, []⟩ : MemoryChunk).write 16
        (fun _ => 0xAB) 8).2) ≤ i →
      (((⟨1, [0], fun _ => 0, []⟩ : MemoryChunk).write 16 (fun _ => 0xAB) 8).1).data i =
        (⟨1, [0], fun _ => 0, []⟩ : MemoryChunk).data i) ∧
    (∀ i, (⟨1, [0], fun _ => 0, []⟩ : MemoryChunk).byte_size ≤ i →
      (((⟨1, [0], fun _ => 0, []⟩ : MemoryChunk).write 16 (fun _ => 0xAB) 8).1).data i =
        (⟨1, [0], fun _ => 0, []⟩ : MemoryChunk).data i) ∧
    (((⟨1, [0], fun _ => 0, []⟩ : MemoryChunk).read 16 8).2 =
      if (⟨1, [0], fun _ => 0, []⟩ : MemoryChunk).byte_size ≤ 16 then 0
      else min 8 ((⟨1, [0], fun _ => 0, []⟩ : MemoryChunk).byte_size - 16)) ∧
    (((⟨1, [0], fun _ => 0, []⟩ : MemoryChunk).write
        ((⟨1, [0], fun _ => 0, []⟩ : MemoryChunk).byte_size - 10) (fun _ => 0xAB) 100).2 = 10) :=
  claim_C8_chunk_clamped_io ⟨1, [0], fun _ => 0, []⟩ (fun _ => 0xAB) 16 8 (by decide)

theorem unmap_range_clears (tbl : MMUTable) (va_start va_end va : Nat)
    (hvs : va_start % PAGE_SIZE = 0) (hal : va % PAGE_SIZE = 0)
    (h1 : va_start ≤ va) (h2 : va ≤ va_end) :
    (unmap_range tbl va_start va_end).1.translate va = none := by
  have hk : va = va_start + 4096 * ((va - va_start) / 4096) := by
    unfold PAGE_SIZE at hvs hal
    omega
  have hm : (va - va_start) / 4096 < (va_end - va_start) / PAGE_SIZE + 1 := by
    unfold PAGE_SIZE
    omega
  unfold MMUTable.translate lookupLeaf unmap_range
  simp only
  rw [hk, unmapLoop_clears tbl.hasFree ((va_end - va_start) / PAGE_SIZE + 1) tbl.pgd
    va_start ((va - va_start) / 4096) hm]
  rfl

/-- One event of `MemoryChunk::free`: an `unmap_range` issued against the
registered address space of the given index, or the release of one backing
physical page to the physical allocator. -/
inductive FreeEvent where
  | unmapSpace (index : Nat)
  | releasePage (pa : Nat)
deriving DecidableEq, Repr

/-- Whether the event is an unmapping. -/
def FreeEvent.isUnmap : FreeEvent → Bool
  | .unmapSpace _ => true
  | .releasePage _ => false

/-- Whether the event is a physical-page release. -/
def FreeEvent.isRelease : FreeEvent → Bool
  | .unmapSpace _ => false
  | .releasePage _ => true

/-- The physical page released by the event, if any. -/
def FreeEvent.released : FreeEvent → Option Nat
  | .unmapSpace _ => none
  | .releasePage pa => some pa

/-- Modelled from the spec: `MemoryChunk::free` of the missing
`memory_chunk.cpp` — for every registered mapping, issues `unmap_range`
against that address space over the chunk's pages, then releases all backing
physical pages to the physical allocator.  Returns the updated address spaces
and the ordered event trace. -/
def MemoryChunk.free (c : MemoryChunk) : List MMUTable × List FreeEvent :=
  (c.proc.map (fun p => (unmap_range p.1 p.2 (p.2 + (c.nb_pages - 1) * PAGE_SIZE)).1),
   (List.range c.proc.length).map FreeEvent.unmapSpace ++
     c.pas.map FreeEvent.releasePage)

theorem released_map_unmap (l : List Nat) :
    (l.map FreeEvent.unmapSpace).filterMap FreeEvent.released = [] := by
  induction l with
  | nil => rfl
  | cons a l ih => simp [List.filterMap_cons, FreeEvent.released, ih]

theorem released_map_release (l : List Nat) :
    (l.map FreeEvent.releasePage).filterMap FreeEvent.released = l := by
  induction l with
  | nil => rfl
  | cons a l ih => simp [List.filterMap_cons, FreeEvent.released, ih]

theorem isUnmap_map_unmap (l : List Nat) (x : FreeEvent)
    (hx : x ∈ l.map FreeEvent.unmapSpace) : x.isUnmap = true := by
  obtain ⟨i, _, rfl⟩ := List.mem_map.mp hx
  rfl

theorem isRelease_map_release (l : List Nat) (x : FreeEvent)
    (hx : x ∈ l.map FreeEvent.releasePage) : x.isRelease = true := by
  obtain ⟨pa, _, rfl⟩ := List.mem_map.mp hx
  rfl

theorem not_isUnmap_isRelease (x : FreeEvent) (h1 : x.isUnmap = true)
    (h2 : x.isRelease = true) : False := by
  cases x with
  | unmapSpace i => exact Bool.noConfusion h2
  | releasePage pa => exact Bool.noConfusion h1

theorem append_get_cases {α : Type} (A B : List α) (i : Nat) (h : i < (A ++ B).length) :
    (i < A.length ∧ (A ++ B).get ⟨i, h⟩ ∈ A) ∨
      (A.length ≤ i ∧ (A ++ B).get ⟨i, h⟩ ∈ B) := by
  by_cases hi : i < A.length
  · left
    refine ⟨hi, ?_⟩
    rw [List.get_eq_getElem, List.getElem_append_left hi]
    exact List.getElem_mem _
  · right
    push_neg at hi
    refine ⟨hi, ?_⟩
    rw [List.get_eq_getElem, List.getElem_append_right hi]
    exact List.getElem_mem _

/-- C9 — Free while mapped: `MemoryChunk::free` issues `unmap_range` against
every registered address space — after which `translate` fails for every chunk
page in each of them — and only after all unmappings does it release the
backing physical pages: in the event trace every unmap event precedes every
release event, and the released pages are exactly the backing pages. -/
theorem claim_C9_free_unmaps_then_releases (c : MemoryChunk)
    (hpg : 1 ≤ c.nb_pages)
    (halign : ∀ p ∈ c.proc, p.2 % PAGE_SIZE = 0) :
    ((MemoryChunk.free c).1 =
      c.proc.map (fun p => (unmap_range p.1 p.2
        (p.2 + (c.nb_pages - 1) * PAGE_SIZE)).1)) ∧
    (∀ p ∈ c.proc, ∀ k, k < c.nb_pages →
      (unmap_range p.1 p.2 (p.2 + (c.nb_pages - 1) * PAGE_SIZE)).1.translate
        (p.2 + PAGE_SIZE * k) = none) ∧
    (∀ i j (hi : i < (MemoryChunk.free c).2.length)
        (hj : j < (MemoryChunk.free c).2.length),
      ((MemoryChunk.free c).2.get ⟨i, hi⟩).isUnmap = true →
      ((MemoryChunk.free c).2.get ⟨j, hj⟩).isRelease = true → i < j) ∧
    ((MemoryChunk.free c).2.filterMap FreeEvent.released = c.pas) := by
  refine ⟨rfl, ?_, ?_, ?_⟩
  · intro p hp k hk
    refine unmap_range_clears p.1 p.2 (p.2 + (c.nb_pages - 1) * PAGE_SIZE)
      (p.2 + PAGE_SIZE * k) (halign p hp) ?_ (by omega) ?_
    · unfold PAGE_SIZE at *
      have := halign p hp
      omega
    · unfold PAGE_SIZE
      omega
  · intro i j hi hj hiu hjr
    have hcases_i := append_get_cases ((List.range c.proc.length).map FreeEvent.unmapSpace)
      (c.pas.map FreeEvent.releasePage) i hi
    have hcases_j := append_get_cases ((List.range c.proc.length).map FreeEvent.unmapSpace)
      (c.pas.map FreeEvent.releasePage) j hj
    rcases hcases_i with ⟨hlt, _⟩ | ⟨_, hmem⟩
    · rcases hcases_j with ⟨_, hmem2⟩ | ⟨hge, _⟩
      · exact absurd hjr (by
          have := isUnmap_map_unmap (List.range c.proc.length) _ hmem2
          exact fun h2 => not_isUnmap_isRelease _ this h2)
      · omega
    · exact absurd hiu (by
        have := isRelease_map_release c.pas _ hmem
        exact fun h1 => not_isUnmap_isRelease _ h1 this)
  · have hlen : (MemoryChunk.free c).2 =
        (List.range c.proc.length).map FreeEvent.unmapSpace ++
          c.pas.map FreeEvent.releasePage := rfl
    rw [hlen, List.filterMap_append, released_map_unmap, released_map_release]
    rfl

/-- Second address space for the C9 witness (maps `[0xA000, 0xB000] → 0xC000`). -/
def demoTblG : MMUTable :=
  (map_range ⟨⟨0, fun _ => none⟩, 1, true⟩ 0xA000 0xB000 0xC000 demoAttrs).getD
    ⟨⟨0, fun _ => none⟩, 1, true⟩

/-- Two-page chunk registered in two address spaces, for the C9 witness. -/
def demoChunk : MemoryChunk :=
  ⟨2, [0x8000, 0x9000], fun _ => 0, [(demoTblF, 0x5000), (demoTblG, 0xA000)]⟩

/-- Witness for C9: freeing the concrete chunk registered in two address
spaces. -/
theorem claim_C9_free_unmaps_then_releases_witness :
    ((MemoryChunk.free demoChunk).1 =
      demoChunk.proc.map (fun p => (unmap_range p.1 p.2
        (p.2 + (demoChunk.nb_pages - 1) * PAGE_SIZE)).1)) ∧
    (∀ p ∈ demoChunk.proc, ∀ k, k < demoChunk.nb_pages →
      (unmap_range p.1 p.2 (p.2 + (demoChunk.nb_pages - 1) * PAGE_SIZE)).1.translate
        (p.2 + PAGE_SIZE * k) = none) ∧
    (∀ i j (hi : i < (MemoryChunk.free demoChunk).2.length)
        (hj : j < (MemoryChunk.free demoChunk).2.length),
      ((MemoryChunk.free demoChunk).2.get ⟨i, hi⟩).isUnmap = true →
      ((MemoryChunk.free demoChunk).2.get ⟨j, hj⟩).isRelease = true → i < j) ∧
    ((MemoryChunk.free demoChunk).2.filterMap FreeEvent.released = demoChunk.pas) :=
  claim_C9_free_unmaps_then_releases demoChunk (by decide) (by
    intro p hp
    rcases List.mem_cons.mp hp with h | hp2
    · subst h
      decide
    · rcases List.mem_cons.mp hp2 with h | h3
      · subst h
        decide
      · exact absurd h3 (List.not_mem_nil p))

/-- 64-bit wrap-around subtraction, as the `uint64_t` subtraction in
`setup_vc_mapping` computes it. -/
def sub64 (a b : Nat) : Nat := (a + (2 ^ 64 - b % 2 ^ 64)) % 2 ^ 64

/-- Embedded from `setup_vc_mapping`: the firmware MMIO base — the minimum
ARM-bus address over all `/soc/ranges` entries, starting from the largest
`uint64` value. -/
def mmio_base_start (socRanges : List Nat) : Nat :=
  socRanges.foldl (fun acc s => if s < acc then s else acc) (2 ^ 64 - 1)

/-- Embedded from `setup_vc_mapping`: the mapped VideoCore region size,
`libk::min(vc_size, mmio_base_start - vc_start)` in `uint64` arithmetic. -/
def final_vc_size (vc_size mmio_base vc_start : Nat) : Nat :=
  min vc_size (sub64 mmio_base vc_start)

/-- C6 counterexample: with a single `/soc/ranges` entry at `0x1000` and a
`/memreserve` region starting at `0x2000` (above the MMIO base) of size
`0x1000`, the `uint64` subtraction wraps, the clamp keeps the full size
`0x1000`, and `vc_start + mapped_size = 0x3000` exceeds the MMIO base — the
claimed overlap-freedom fails when `vc_start` is above `mmio_base`. -/
theorem claim_C6_vc_clamp_counterexample :
    final_vc_size 0x1000 (mmio_base_start [0x1000]) 0x2000 = 0x1000 ∧
    ¬(0x2000 + final_vc_size 0x1000 (mmio_base_start [0x1000]) 0x2000 ≤
      mmio_base_start [0x1000]) := by
  constructor <;> decide

/-- C6 (amended) — The mapped VideoCore size is
`min(vc_size, mmio_base - vc_start)` computed in 64-bit unsigned arithmetic,
and provided the `/memreserve` start does not lie above the MMIO base,
`vc_start + mapped_size` never exceeds `mmio_base`, so the mapped region never
overlaps the MMIO base.  (Without that proviso the subtraction wraps and the
guarantee fails — see the counterexample.) -/
theorem claim_C6_vc_clamp_no_overlap (socRanges : List Nat) (vc_start vc_size : Nat)
    (hs : vc_start ≤ mmio_base_start socRanges)
    (hb : mmio_base_start socRanges < 2 ^ 64) :
    final_vc_size vc_size (mmio_base_start socRanges) vc_start =
      min vc_size (mmio_base_start socRanges - vc_start) ∧
    vc_start + final_vc_size vc_size (mmio_base_start socRanges) vc_start ≤
      mmio_base_start socRanges := by
  have hsub : sub64 (mmio_base_start socRanges) vc_start =
      mmio_base_start socRanges - vc_start := by
    unfold sub64
    omega
  unfold final_vc_size
  rw [hsub]
  refine ⟨rfl, ?_⟩
  have := Nat.min_le_right vc_size (mmio_base_start socRanges - vc_start)
  omega

/-- Witness for C6 (amended) at Raspberry-Pi-like values: MMIO base
`0x3F000000`, VideoCore region `0x3B400000` of size `0x4000000`. -/
theorem claim_C6_vc_clamp_no_overlap_witness :
    final_vc_size 0x4000000 (mmio_base_start [0x3F000000]) 0x3B400000 =
      min 0x4000000 (mmio_base_start [0x3F000000] - 0x3B400000) ∧
    0x3B400000 + final_vc_size 0x4000000 (mmio_base_start [0x3F000000]) 0x3B400000 ≤
      mmio_base_start [0x3F000000] :=
  claim_C6_vc_clamp_no_overlap [0x3F000000] 0x3B400000 0x4000000
    (by decide) (by decide)

/-- `libk::align(x, PAGE_SIZE)`: align up to the next page boundary. -/
def align_up (x : Nat) : Nat := (x + PAGE_SIZE - 1) / PAGE_SIZE * PAGE_SIZE

/-- Embedded from `setup_memory_mapping` (device-tree step): the aligned-down
start `dtb & ~(PAGE_SIZE - 1)` passed to `change_attr_range`. -/
def dtb_step_start (dtb : Nat) : Nat := dtb / PAGE_SIZE * PAGE_SIZE

/-- Embedded from `setup_memory_mapping` (device-tree step): the aligned-up
stop `libk::align(dtb + dtb_size, PAGE_SIZE)` passed as the **inclusive**
`va_end` of `change_attr_range`. -/
def dtb_step_stop (dtb dtb_size : Nat) : Nat := align_up (dtb + dtb_size)

/-- The pages whose attributes the device-tree step changes: the inclusive
range `[dtb_step_start, dtb_step_stop]` walked page by page, mirroring
`change_attr_range`'s loop over `(va_end - va_start) / PAGE_SIZE + 1` pages. -/
def dtb_step_pages (dtb dtb_size : Nat) : List Nat :=
  (List.range ((dtb_step_stop dtb dtb_size - dtb_step_start dtb) / PAGE_SIZE + 1)).map
    (fun k => dtb_step_start dtb + PAGE_SIZE * k)

/-- The page `[p, p + PAGE_SIZE)` contains at least one byte of the blob
`[dtb, dtb + dtb_size)`. -/
def coversBlobByte (dtb dtb_size p : Nat) : Prop :=
  p < dtb + dtb_size ∧ dtb < p + PAGE_SIZE

instance (dtb dtb_size p : Nat) : Decidable (coversBlobByte dtb dtb_size p) :=
  inferInstanceAs (Decidable (_ ∧ _))

/-- C7 — the device-tree read-only step changes one page more than the pages
covering the blob: with `dtb = 0x80000` and header size `0x100`, the step's
page set is `{0x80000, 0x81000}`, yet the page `0x81000` contains no byte of
the blob.  The step passes the exclusive aligned-up end to the inclusive
`va_end` parameter of `change_attr_range`. -/
theorem claim_C7_dtb_step_extra_page :
    0x81000 ∈ dtb_step_pages 0x80000 0x100 ∧
    ¬coversBlobByte 0x80000 0x100 0x81000 ∧
    ∀ p ∈ dtb_step_pages 0x80000 0x100, p = 0x80000 ∨ p = 0x81000 := by
  refine ⟨?_, ?_, ?_⟩ <;> decide

/-- Embedded from the source: the boot-time bump-allocator bookkeeping
(`MMUTableHandleData`). -/
structure MMUTableHandleData where
  first_page : Nat
  upper_bound : Nat
  nb_allocated : Nat
deriving DecidableEq, Repr

/-- Embedded from the source: `alloc_page` — computes
`first_page + PAGE_SIZE * nb_allocated` (with `uint64` wrap-around where the C
arithmetic wraps), `enforce`s that the page end stays strictly below
`upper_bound` (halting otherwise, modelled as `none`), zero-fills the page and
returns it.  `mem` is the byte memory written by the zero-fill loop. -/
def alloc_page (h : MMUTableHandleData) (mem : Nat → Nat) :
    Option (Nat × MMUTableHandleData × (Nat → Nat)) :=
  let cur := (h.first_page + PAGE_SIZE * h.nb_allocated) % 2 ^ 64
  if (cur + PAGE_SIZE) % 2 ^ 64 < h.upper_bound then
    some (cur, { h with nb_allocated := h.nb_allocated + 1 },
      fun a => if cur ≤ a ∧ a < cur + PAGE_SIZE then 0 else mem a)
  else none

/-- Embedded from `mmu_init`: the allocator handle is configured with
`first_page = _kend` and `upper_bound` the device-tree blob's page-aligned
start (`dtb & ~(PAGE_SIZE - 1)`). -/
def mmu_init_handle (kend dtb : Nat) : MMUTableHandleData :=
  ⟨kend, dtb / PAGE_SIZE * PAGE_SIZE, 0⟩

/-- `n` successive boot allocations: the handed-out pages, the final handle and
the final memory, or `none` when any call halts. -/
def allocN (mem : Nat → Nat) (h : MMUTableHandleData) :
    Nat → Option (List Nat × MMUTableHandleData × (Nat → Nat))
  | 0 => some ([], h, mem)
  | n + 1 =>
    match alloc_page h mem with
    | none => none
    | some (p, h2, mem2) =>
      match allocN mem2 h2 n with
      | none => none
      | some (ps, h3, mem3) => some (p :: ps, h3, mem3)

theorem allocN_zero_preserved (n : Nat) :
    ∀ (mem : Nat → Nat) (h : MMUTableHandleData) ps h3 mem3 (a : Nat),
      allocN mem h n = some (ps, h3, mem3) → mem a = 0 → mem3 a = 0 := by
  induction n with
  | zero =>
    intro mem h ps h3 mem3 a hh hz
    simp only [allocN, Option.some.injEq, Prod.mk.injEq] at hh
    obtain ⟨_, _, h3⟩ := hh
    subst h3
    exact hz
  | succ n ih =>
    intro mem h ps h3 mem3 a hh hz
    unfold allocN at hh
    cases ha : alloc_page h mem with
    | none => rw [ha] at hh; exact Option.noConfusion hh
    | some r =>
      obtain ⟨p, h2, mem2⟩ := r
      simp only [ha] at hh
      cases hb : allocN mem2 h2 n with
      | none => rw [hb] at hh; exact Option.noConfusion hh
      | some r2 =>
        obtain ⟨ps2, h32, mem32⟩ := r2
        simp only [hb, Option.some.injEq, Prod.mk.injEq] at hh
        obtain ⟨_, _, hm⟩ := hh
        subst hm
        refine ih mem2 h2 ps2 h32 mem32 a hb ?_
        unfold alloc_page at ha
        by_cases hc : ((h.first_page + PAGE_SIZE * h.nb_allocated) % 2 ^ 64 + PAGE_SIZE)
            % 2 ^ 64 < h.upper_bound
        · rw [if_pos hc] at ha
          simp only [Option.some.injEq, Prod.mk.injEq] at ha
          obtain ⟨_, _, hm2⟩ := ha
          subst hm2
          by_cases hin : (h.first_page + PAGE_SIZE * h.nb_allocated) % 2 ^ 64 ≤ a ∧
              a < (h.first_page + PAGE_SIZE * h.nb_allocated) % 2 ^ 64 + PAGE_SIZE
          · exact if_pos hin
          · exact (if_neg hin).trans hz
        · rw [if_neg hc] at ha
          exact Option.noConfusion ha

theorem allocN_success (n : Nat) :
    ∀ (first upper m : Nat) (mem : Nat → Nat) ps h3 mem3,
      upper % PAGE_SIZE = 0 → upper < 2 ^ 64 →
      allocN mem ⟨first, upper, m⟩ n = some (ps, h3, mem3) →
      first + PAGE_SIZE * m < upper →
      ps.length = n ∧
      (∀ k, (hk : k < ps.length) → ps.get ⟨k, hk⟩ = first + PAGE_SIZE * (m + k)) ∧
      (∀ k, (hk : k < ps.length) → first + PAGE_SIZE * (m + k) + PAGE_SIZE < upper) ∧
      (∀ k, (hk : k < ps.length) → ∀ a, first + PAGE_SIZE * (m + k) ≤ a →
        a < first + PAGE_SIZE * (m + k) + PAGE_SIZE → mem3 a = 0) := by
  induction n with
  | zero =>
    intro first upper m mem ps h3 mem3 hal hup hh hinv
    simp only [allocN, Option.some.injEq, Prod.mk.injEq] at hh
    obtain ⟨hps, _, _⟩ := hh
    subst hps
    refine ⟨rfl, ?_, ?_, ?_⟩ <;> intro k hk <;> simp at hk
  | succ n ih =>
    intro first upper m mem ps h3 mem3 hal hup hh hinv
    unfold allocN at hh
    cases ha : alloc_page ⟨first, upper, m⟩ mem with
    | none => rw [ha] at hh; exact Option.noConfusion hh
    | some r =>
      obtain ⟨p, h2, mem2⟩ := r
      simp only [ha] at hh
      cases hb : allocN mem2 h2 n with
      | none => rw [hb] at hh; exact Option.noConfusion hh
      | some r2 =>
        obtain ⟨ps2, h32, mem32⟩ := r2
        simp only [hb, Option.some.injEq, Prod.mk.injEq] at hh
        obtain ⟨hps, hh3, hm3⟩ := hh
        subst hps
        subst hh3
        subst hm3
        unfold alloc_page at ha
        simp only at ha
        have hcur : (first + PAGE_SIZE * m) % 2 ^ 64 = first + PAGE_SIZE * m :=
          Nat.mod_eq_of_lt (by omega)
        rw [hcur] at ha
        have hnow : (first + PAGE_SIZE * m + PAGE_SIZE) % 2 ^ 64 =
            first + PAGE_SIZE * m + PAGE_SIZE := by
          refine Nat.mod_eq_of_lt ?_
          unfold PAGE_SIZE at hal hinv ⊢
          omega
        rw [hnow] at ha
        by_cases hc : first + PAGE_SIZE * m + PAGE_SIZE < upper
        · rw [if_pos hc] at ha
          simp only [Option.some.injEq, Prod.mk.injEq] at ha
          obtain ⟨hp, hh2, hm2⟩ := ha
          subst hp
          subst hh2
          subst hm2
          obtain ⟨hlen, hget, hbound, hzero⟩ := ih first upper (m + 1) _ ps2 h32 mem32
            hal hup hb (by unfold PAGE_SIZE at hc ⊢; omega)
          refine ⟨by simp [hlen], ?_, ?_, ?_⟩
          · intro k hk
            cases k with
            | zero => simp
            | succ k =>
              have hk2 : k < ps2.length := by simp at hk; omega
              have := hget k hk2
              simp only [List.get]
              rw [this]
              congr 1
              ring
          · intro k hk
            cases k with
            | zero =>
              simpa using hc
            | succ k =>
              have hk2 : k < ps2.length := by simp at hk; omega
              have := hbound k hk2
              have harith : first + PAGE_SIZE * (m + 1 + k) = first + PAGE_SIZE * (m + (k + 1)) := by
                ring
              rw [harith] at this
              exact this
          · intro k hk a ha1 ha2
            cases k with
            | zero =>
              refine allocN_zero_preserved n _ _ ps2 h32 mem32 a hb ?_
              simp only [Nat.add_zero] at ha1 ha2
              exact if_pos ⟨by omega, by omega⟩
            | succ k =>
              have hk2 : k < ps2.length := by simp at hk; omega
              have := hzero k hk2 a
              have harith : first + PAGE_SIZE * (m + 1 + k) = first + PAGE_SIZE * (m + (k + 1)) := by
                ring
              rw [harith] at this
              exact this ha1 ha2
        · rw [if_neg hc] at ha
          exact Option.noConfusion ha

theorem allocN_halts (n : Nat) :
    ∀ (first upper m : Nat) (mem : Nat → Nat),
      upper % PAGE_SIZE = 0 → upper < 2 ^ 64 →
      first + PAGE_SIZE * m < upper →
      upper ≤ first + PAGE_SIZE * (m + n) + PAGE_SIZE →
      allocN mem ⟨first, upper, m⟩ (n + 1) = none := by
  induction n with
  | zero =>
    intro first upper m mem hal hup hinv hre
    unfold allocN alloc_page
    simp only
    have hcur : (first + PAGE_SIZE * m) % 2 ^ 64 = first + PAGE_SIZE * m :=
      Nat.mod_eq_of_lt (by omega)
    rw [hcur]
    rw [if_neg ?_]
    have hnow : (first + PAGE_SIZE * m + PAGE_SIZE) % 2 ^ 64 =
        first + PAGE_SIZE * m + PAGE_SIZE := by
      refine Nat.mod_eq_of_lt ?_
      unfold PAGE_SIZE at hal hinv ⊢
      omega
    rw [hnow]
    simp only [Nat.add_zero] at hre
    omega
  | succ n ih =>
    intro first upper m mem hal hup hinv hre
    unfold allocN
    cases ha : alloc_page ⟨first, upper, m⟩ mem with
    | none => rfl
    | some r =>
      obtain ⟨p, h2, mem2⟩ := r
      simp only
      unfold alloc_page at ha
      simp only at ha
      have hcur : (first + PAGE_SIZE * m) % 2 ^ 64 = first + PAGE_SIZE * m :=
        Nat.mod_eq_of_lt (by omega)
      rw [hcur] at ha
      have hnow : (first + PAGE_SIZE * m + PAGE_SIZE) % 2 ^ 64 =
          first + PAGE_SIZE * m + PAGE_SIZE := by
        refine Nat.mod_eq_of_lt ?_
        unfold PAGE_SIZE at hal hinv ⊢
        omega
      rw [hnow] at ha
      by_cases hc : first + PAGE_SIZE * m + PAGE_SIZE < upper
      · rw [if_pos hc] at ha
        simp only [Option.some.injEq, Prod.mk.injEq] at ha
        obtain ⟨hp, hh2, hm2⟩ := ha
        subst hh2
        have := ih first upper (m + 1) mem2 hal hup (by unfold PAGE_SIZE at hc ⊢; omega)
          (by
            have harith : m + 1 + n = m + (n + 1) := by omega
            rw [harith]
            exact hre)
        rw [this]
      · rw [if_neg hc] at ha
        exact Option.noConfusion ha

/-- C10 — Boot bump allocator: configured by `mmu_init` with
`first_page = _kend` and `upper_bound` the device-tree blob's page-aligned
start, the k-th successful call returns the page `_kend + PAGE_SIZE * k`,
zero-fills all of it before returning, keeps every handed-out page strictly
below the blob's page-aligned start (so no table page overlaps the blob),
hands out pairwise-disjoint pages, and halts (never returns) whenever the next
page would reach the upper bound. -/
theorem claim_C10_boot_alloc (kend dtb n : Nat) (mem : Nat → Nat)
    (hlt : kend < dtb / PAGE_SIZE * PAGE_SIZE) (hdtb : dtb < 2 ^ 64) :
    (∀ ps h3 mem3,
      allocN mem (mmu_init_handle kend dtb) n = some (ps, h3, mem3) →
      ps.length = n ∧
      (∀ k, (hk : k < ps.length) → ps.get ⟨k, hk⟩ = kend + PAGE_SIZE * k) ∧
      (∀ k, (hk : k < ps.length) →
        ps.get ⟨k, hk⟩ + PAGE_SIZE < dtb / PAGE_SIZE * PAGE_SIZE) ∧
      (∀ k, (hk : k < ps.length) → ∀ a, ps.get ⟨k, hk⟩ ≤ a →
        a < ps.get ⟨k, hk⟩ + PAGE_SIZE → mem3 a = 0) ∧
      (∀ k l, (hk : k < ps.length) → (hl : l < ps.length) → k ≠ l →
        ps.get ⟨k, hk⟩ + PAGE_SIZE ≤ ps.get ⟨l, hl⟩ ∨
          ps.get ⟨l, hl⟩ + PAGE_SIZE ≤ ps.get ⟨k, hk⟩)) ∧
    (dtb / PAGE_SIZE * PAGE_SIZE ≤ kend + PAGE_SIZE * n + PAGE_SIZE →
      allocN mem (mmu_init_handle kend dtb) (n + 1) = none) := by
  have hal : (dtb / PAGE_SIZE * PAGE_SIZE) % PAGE_SIZE = 0 := by
    unfold PAGE_SIZE
    omega
  have hup : dtb / PAGE_SIZE * PAGE_SIZE < 2 ^ 64 := by
    unfold PAGE_SIZE at hlt ⊢
    omega
  constructor
  · intro ps h3 mem3 hh
    obtain ⟨hlen, hget, hbound, hzero⟩ := allocN_success n kend
      (dtb / PAGE_SIZE * PAGE_SIZE) 0 mem ps h3 mem3 hal hup hh (by omega)
    refine ⟨hlen, ?_, ?_, ?_, ?_⟩
    · intro k hk
      rw [hget k hk]
      simp
    · intro k hk
      rw [hget k hk]
      have := hbound k hk
      simp only [Nat.zero_add] at this
      simpa using this
    · intro k hk a ha1 ha2
      rw [hget k hk] at ha1 ha2
      have := hzero k hk a
      simp only [Nat.zero_add] at this
      exact this (by simpa using ha1) (by simpa using ha2)
    · intro k l hk hl hne
      rw [hget k hk, hget l hl]
      unfold PAGE_SIZE
      rcases Nat.lt_or_ge k l with h | h
      · left
        omega
      · right
        omega
  · intro hre
    refine allocN_halts n kend (dtb / PAGE_SIZE * PAGE_SIZE) 0 mem hal hup (by omega) ?_
    simpa using hre

/-- Witness for C10: `_kend = 0x80000`, blob at `0x84000`, three allocations
(which exactly fill the window; the fourth call halts). -/
theorem claim_C10_boot_alloc_witness :
    (∀ ps h3 mem3,
      allocN (fun _ => 7) (mmu_init_handle 0x80000 0x84000) 3 = some (ps, h3, mem3) →
      ps.length = 3 ∧
      (∀ k, (hk : k < ps.length) → ps.get ⟨k, hk⟩ = 0x80000 + PAGE_SIZE * k) ∧
      (∀ k, (hk : k < ps.length) →
        ps.get ⟨k, hk⟩ + PAGE_SIZE < 0x84000 / PAGE_SIZE * PAGE_SIZE) ∧
      (∀ k, (hk : k < ps.length) → ∀ a, ps.get ⟨k, hk⟩ ≤ a →
        a < ps.get ⟨k, hk⟩ + PAGE_SIZE → mem3 a = 0) ∧
      (∀ k l, (hk : k < ps.length) → (hl : l < ps.length) → k ≠ l →
        ps.get ⟨k, hk⟩ + PAGE_SIZE ≤ ps.get ⟨l, hl⟩ ∨
          ps.get ⟨l, hl⟩ + PAGE_SIZE ≤ ps.get ⟨k, hk⟩)) ∧
    (0x84000 / PAGE_SIZE * PAGE_SIZE ≤ 0x80000 + PAGE_SIZE * 3 + PAGE_SIZE →
      allocN (fun _ => 7) (mmu_init_handle 0x80000 0x84000) (3 + 1) = none) :=
  claim_C10_boot_alloc 0x80000 0x84000 3 (fun _ => 7) (by decide) (by decide)
